import Mathlib

/-!
Verification of the OHIP payment-summary parser (`parse_payment_summary.py`).

The Python source is shallowly embedded: pure string/regex heuristics become
executable Lean functions over `String`/`List Char`, floating-point amounts are
modelled as exact decimal fractions (`Dec`, with rational value `Dec.toRat`;
every amount the parser produces has an exact finite decimal representation),
and Python's `None`/value returns become `Option`.  Each definition mirrors
one Python function of the source and keeps its name where Lean allows it.
-/

namespace PaymentSummary

/-! ### Python string primitives -/

/-- Python's `\s` / `str.isspace` character class for the ASCII range
(space, tab, newline, carriage return, vertical tab, form feed). -/
def pyIsWS (c : Char) : Bool :=
  c = ' ' || c = '\t' || c = '\n' || c = '\r' || c = '\x0b' || c = '\x0c'

/-- ASCII alphabetic test (regex `[A-Za-z]`). -/
def isAsciiAlpha (c : Char) : Bool :=
  ('A' ≤ c && c ≤ 'Z') || ('a' ≤ c && c ≤ 'z')

/-- ASCII digit test (regex `[0-9]` / `\d`). -/
def isAsciiDigit (c : Char) : Bool :=
  '0' ≤ c && c ≤ '9'

/-- `str.upper` on the characters that occur here (ASCII). -/
def upChar (c : Char) : Char :=
  if 'a' ≤ c && c ≤ 'z' then Char.ofNat (c.toNat - 32) else c

/-- `str.lower` on ASCII characters. -/
def lowChar (c : Char) : Char :=
  if 'A' ≤ c && c ≤ 'Z' then Char.ofNat (c.toNat + 32) else c

/-- `str.upper`. -/
def pyUpper (s : String) : String := String.mk (s.toList.map upChar)

/-- `str.lower`. -/
def pyLower (s : String) : String := String.mk (s.toList.map lowChar)

/-- Drop characters satisfying `p` from the front of a character list. -/
def lstripBy (p : Char → Bool) (l : List Char) : List Char := l.dropWhile p

/-- Drop characters satisfying `p` from the back of a character list. -/
def rstripBy (p : Char → Bool) (l : List Char) : List Char :=
  (l.reverse.dropWhile p).reverse

/-- Drop characters satisfying `p` from both ends. -/
def stripBy (p : Char → Bool) (l : List Char) : List Char :=
  rstripBy p (lstripBy p l)

/-- `str.strip()` (no arguments: strip whitespace). -/
def pyStrip (s : String) : String := String.mk (stripBy pyIsWS s.toList)

/-- `str.rstrip()` (strip trailing whitespace). -/
def pyRstrip (s : String) : String := String.mk (rstripBy pyIsWS s.toList)

/-- `str.strip(chars)`: strip any of the characters of `chars` from both ends. -/
def pyStripChars (chars : String) (s : String) : String :=
  String.mk (stripBy (fun c => chars.toList.contains c) s.toList)

/-- Whether `pat` occurs as a prefix of `l` (plain executable definition). -/
def isPre : List Char → List Char → Bool
  | [], _ => true
  | _ :: _, [] => false
  | p :: ps, c :: cs => p = c && isPre ps cs

theorem isPre_iff (p l : List Char) : isPre p l = true ↔ ∃ t, l = p ++ t := by
  induction p generalizing l with
  | nil => simp [isPre]
  | cons a ps ih =>
    cases l with
    | nil => simp [isPre]
    | cons c cs =>
      simp only [isPre, Bool.and_eq_true, decide_eq_true_eq, ih, List.cons_append,
        List.cons.injEq]
      constructor
      · rintro ⟨rfl, t, rfl⟩; exact ⟨t, rfl, rfl⟩
      · rintro ⟨t, rfl, rfl⟩; exact ⟨rfl, t, rfl⟩

/-- Whether `pat` occurs as a contiguous substring of `l` (Python's `in`). -/
def isSub (pat : List Char) : List Char → Bool
  | [] => isPre pat []
  | c :: cs => isPre pat (c :: cs) || isSub pat cs

/-- Python's `pat in s` substring test. -/
def strContains (s pat : String) : Bool := isSub pat.toList s.toList

/-- Python's `s.endswith(t)`. -/
def pyEndsWith (s t : String) : Bool := isPre t.toList.reverse s.toList.reverse

/-- `re.search("[A-Za-z]", s)` success: the string contains an ASCII letter. -/
def strHasAlpha (s : String) : Bool := s.toList.any isAsciiAlpha

/-! ### `str.replace`, `str.split`, `str.splitlines` -/

/-- One pass of `str.replace`: replace every non-overlapping occurrence of
`pat` (nonempty) left to right, continuing after each replacement.  The fuel
starts at the string length and every step consumes at least one character,
so the fuel never runs out (structural recursion keeps the definition
kernel-reducible). -/
def pyReplaceAux (pat rep : List Char) : Nat → List Char → List Char
  | _, [] => []
  | 0, l => l
  | fuel + 1, c :: t =>
    if isPre pat (c :: t) then
      rep ++ pyReplaceAux pat rep fuel ((c :: t).drop pat.length)
    else
      c :: pyReplaceAux pat rep fuel t

/-- Python's `s.replace(pat, rep)` for nonempty `pat` (empty `pat` unused
here; we return `s` unchanged in that case). -/
def pyReplace (s pat rep : String) : String :=
  if pat.toList.isEmpty then s
  else String.mk (pyReplaceAux pat.toList rep.toList s.toList.length s.toList)

/-- Auxiliary for `str.split(sep)` with nonempty `sep`; `acc` holds the
current field reversed.  Fuel as in `pyReplaceAux`. -/
def pySplitAux (pat : List Char) : Nat → List Char → List Char → List (List Char)
  | _, [], acc => [acc.reverse]
  | 0, l, acc => [acc.reverse ++ l]
  | fuel + 1, c :: t, acc =>
    if isPre pat (c :: t) then
      acc.reverse :: pySplitAux pat fuel ((c :: t).drop pat.length) []
    else
      pySplitAux pat fuel t (c :: acc)

/-- Python's `s.split(sep)` for a nonempty separator. -/
def pySplit (sep s : String) : List String :=
  if sep.toList.isEmpty then [s]
  else (pySplitAux sep.toList s.toList.length s.toList []).map String.mk

theorem pySplitAux_ne_nil (pat : List Char) (fuel : Nat) (l acc : List Char) :
    pySplitAux pat fuel l acc ≠ [] := by
  induction fuel, l, acc using pySplitAux.induct pat with
  | case1 fuel acc => simp [pySplitAux]
  | case2 l acc h => rw [pySplitAux.eq_def]; split <;> simp_all
  | case3 fuel c t acc hp ih => rw [pySplitAux]; simp [hp]
  | case4 fuel c t acc hp ih => rw [pySplitAux]; simp only [hp]; simpa using ih

theorem pySplit_ne_nil (sep s : String) : pySplit sep s ≠ [] := by
  unfold pySplit
  split
  · simp
  · simp only [ne_eq, List.map_eq_nil_iff]
    exact pySplitAux_ne_nil _ _ _ _

/-- Python line-break characters recognised by `str.splitlines` (the ones in
the ASCII/Latin-1 range; `\r\n` is treated as a single break). -/
def isLineBreak (c : Char) : Bool :=
  c = '\n' || c = '\r' || c = '\x0b' || c = '\x0c' ||
  c = '\x1c' || c = '\x1d' || c = '\x1e' || c = '\x85'

/-- Auxiliary for `str.splitlines`; `acc` holds the current line reversed. -/
def splitlinesAux : List Char → List Char → List String
  | [], acc => if acc = [] then [] else [String.mk acc.reverse]
  | '\r' :: '\n' :: t, acc => String.mk acc.reverse :: splitlinesAux t []
  | c :: t, acc =>
    if isLineBreak c then String.mk acc.reverse :: splitlinesAux t []
    else splitlinesAux t (c :: acc)

/-- Python's `s.splitlines()`. -/
def pySplitlines (s : String) : List String := splitlinesAux s.toList []

/-! ### Small regex pieces used by the source -/

/-- `re.sub(r"\s+", " ", s)`: collapse every whitespace run to one space. -/
def collapseWS : List Char → List Char
  | [] => []
  | [c] => if pyIsWS c then [' '] else [c]
  | a :: b :: t =>
    if pyIsWS a && pyIsWS b then collapseWS (b :: t)
    else (if pyIsWS a then ' ' else a) :: collapseWS (b :: t)

/-- `_normalize_spaces`: `re.sub(r"\s+", " ", s).strip()`. -/
def normalizeSpaces (s : String) : String :=
  String.mk (stripBy pyIsWS (collapseWS s.toList))

/-- `re.sub(r"[\x00-\x08\x0b-\x0c\x0e-\x1f]", " ", s)`: control characters
(except tab, newline, carriage return) become spaces. -/
def normCtrl (s : String) : String :=
  String.mk (s.toList.map fun c =>
    if c.toNat ≤ 8 || c.toNat = 0x0b || c.toNat = 0x0c ||
       (0x0e ≤ c.toNat && c.toNat ≤ 0x1f) then ' ' else c)

/-! ### `decode_caesar_shift` (source lines 560-573) -/

/-- `decode_caesar_shift`: map `c -> chr(ord(c)+shift)` for `ord c` in
`[low, high]`; other characters unchanged. Defaults mirror the source. -/
def decode_caesar_shift (text : String) (shift : Nat := 29)
    (low : Nat := 33) (high : Nat := 94) : String :=
  String.mk (text.toList.map fun ch =>
    if low ≤ ch.toNat && ch.toNat ≤ high then Char.ofNat (ch.toNat + shift)
    else ch)

/-! ### `main`'s exit-code logic (source lines 1174-1177 and 1335-1338)

`main` exits with code 1 when the input path does not exist.  Otherwise the
extracted text is split on form feeds and the program exits with code 2 when
that list is empty.  `mainPages` mirrors `text.split("\f")` and `mainExitCode`
the decision itself (`none` = no early exit). -/

def mainPages (text : String) : List String := pySplit "\x0c" text

def mainExitCode (inputExists : Bool) (extractedText : String) : Option Nat :=
  if !inputExists then some 1
  else if mainPages extractedText = [] then some 2
  else none

/-! ### The currency-number regex `_NUM_RE`

`_NUM_RE = re.compile(r"(-?\d{1,3}(?:,\d{3})*(?:\.\d{2})?)")` and
`findall` over a line.  Since everything after `\d{1,3}` is optional, the
regex matches at a position exactly when a digit (optionally preceded by a
minus sign) starts there; each greedy component is deterministic.  `findall`
scans left to right, resuming after each match. -/

/-- Greedy `\d{1,3}`: up to three leading digits. -/
def takeUpTo3Digits (l : List Char) : List Char × List Char :=
  let a := (l.takeWhile isAsciiDigit).take 3
  (a, l.drop a.length)

/-- Greedy `(?:,\d{3})*`: comma-separated three-digit groups. -/
def takeGroups : List Char → List Char × List Char
  | ',' :: a :: b :: c :: t =>
    if isAsciiDigit a && isAsciiDigit b && isAsciiDigit c then
      (',' :: a :: b :: c :: (takeGroups t).1, (takeGroups t).2)
    else ([], ',' :: a :: b :: c :: t)
  | l => ([], l)

/-- Greedy `(?:\.\d{2})?`: an optional two-digit decimal part. -/
def takeDec : List Char → List Char × List Char
  | '.' :: a :: b :: t =>
    if isAsciiDigit a && isAsciiDigit b then (['.', a, b], t)
    else ([], '.' :: a :: b :: t)
  | l => ([], l)

/-- Match the unsigned part of `_NUM_RE` at the head of `l`:
`\d{1,3}(?:,\d{3})*(?:\.\d{2})?`. -/
def numCore (l : List Char) : Option (List Char × List Char) :=
  match l with
  | c :: _ =>
    if isAsciiDigit c then
      some ((takeUpTo3Digits l).1 ++ (takeGroups (takeUpTo3Digits l).2).1 ++
            (takeDec (takeGroups (takeUpTo3Digits l).2).2).1,
            (takeDec (takeGroups (takeUpTo3Digits l).2).2).2)
    else none
  | [] => none

/-- Match `_NUM_RE` (with optional sign) at the head of `l`. -/
def numTry (l : List Char) : Option (List Char × List Char) :=
  match l with
  | '-' :: t =>
    match numCore t with
    | some (tok, r) => some ('-' :: tok, r)
    | none => none
  | _ => numCore l

theorem takeUpTo3Digits_decomp (l : List Char) :
    (takeUpTo3Digits l).1 ++ (takeUpTo3Digits l).2 = l := by
  have key : ∀ (n : Nat) (l : List Char),
      ((l.takeWhile isAsciiDigit).take n) ++
        l.drop ((l.takeWhile isAsciiDigit).take n).length = l := by
    intro n l
    induction l generalizing n with
    | nil => simp
    | cons c t ih =>
      by_cases hc : isAsciiDigit c
      · rw [List.takeWhile_cons_of_pos hc]
        cases n with
        | zero => simp
        | succ m => simpa using ih m
      · rw [List.takeWhile_cons_of_neg hc]; simp
  exact key 3 l

theorem takeGroups_decomp (l : List Char) :
    (takeGroups l).1 ++ (takeGroups l).2 = l := by
  induction l using takeGroups.induct with
  | case1 a b c t hd ih => simp [takeGroups, hd, ih]
  | case2 a b c t hd => simp [takeGroups, hd]
  | case3 l h =>
    rw [takeGroups.eq_def]
    split
    · exfalso; apply h <;> rfl
    · rfl

theorem takeDec_decomp (l : List Char) :
    (takeDec l).1 ++ (takeDec l).2 = l := by
  rw [takeDec.eq_def]
  split
  · split <;> rfl
  · rfl

theorem numCore_decomp {l tok rest : List Char}
    (h : numCore l = some (tok, rest)) : tok ++ rest = l ∧ tok ≠ [] := by
  cases l with
  | nil => exact absurd h (by simp [numCore])
  | cons c t =>
    rw [numCore] at h
    by_cases hc : isAsciiDigit c
    · rw [if_pos hc] at h
      simp only [Option.some.injEq, Prod.mk.injEq] at h
      obtain ⟨h1, h2⟩ := h
      subst h1 h2
      refine ⟨?_, ?_⟩
      · have e1 := takeUpTo3Digits_decomp (c :: t)
        have e2 := takeGroups_decomp (takeUpTo3Digits (c :: t)).2
        have e3 := takeDec_decomp (takeGroups (takeUpTo3Digits (c :: t)).2).2
        calc _ = (takeUpTo3Digits (c :: t)).1 ++ ((takeGroups (takeUpTo3Digits (c :: t)).2).1 ++
                ((takeDec (takeGroups (takeUpTo3Digits (c :: t)).2).2).1 ++
                 (takeDec (takeGroups (takeUpTo3Digits (c :: t)).2).2).2)) := by
              simp [List.append_assoc]
          _ = c :: t := by rw [e3, e2, e1]
      · intro hnil
        have hd1 : (takeUpTo3Digits (c :: t)).1 = [] :=
          (List.append_eq_nil.mp (List.append_eq_nil.mp hnil).1).1
        rw [takeUpTo3Digits] at hd1
        simp only at hd1
        rw [List.takeWhile_cons_of_pos hc] at hd1
        simp at hd1
    · rw [if_neg hc] at h
      exact absurd h (by simp)

theorem numTry_decomp {l tok rest : List Char}
    (h : numTry l = some (tok, rest)) : tok ++ rest = l ∧ tok ≠ [] := by
  rw [numTry.eq_def] at h
  split at h
  · rename_i t
    cases hc : numCore t with
    | none => rw [hc] at h; exact absurd h (by simp)
    | some pr =>
      obtain ⟨tk, r⟩ := pr
      rw [hc] at h
      simp only [Option.some.injEq, Prod.mk.injEq] at h
      obtain ⟨h1, h2⟩ := h
      subst h1 h2
      obtain ⟨e, _⟩ := numCore_decomp hc
      exact ⟨by simp [e], by simp⟩
  · exact numCore_decomp h

/-- `_NUM_RE.findall`: scan left to right, emitting each match and resuming
after it; on failure advance one character.  Fuel as in `pyReplaceAux`
(every step consumes at least one character). -/
def findNumsAux : Nat → List Char → List String
  | _, [] => []
  | 0, _ => []
  | fuel + 1, c :: t =>
    match numTry (c :: t) with
    | some (tok, rest) => String.mk tok :: findNumsAux fuel rest
    | none => findNumsAux fuel t

/-- `_NUM_RE.findall(line)`. -/
def findNums (s : String) : List String := findNumsAux s.toList.length s.toList

/-! ### Exact decimal amounts

Python floats appear here only as parsed currency amounts (finitely many
decimal digits) and their sums, so the embedding models them as exact
decimal fractions `num / 10 ^ exp`.  `Dec.norm` keeps the representation
canonical (mantissa not divisible by 10 unless the exponent is 0), so
structural equality coincides with value equality.  All operations are
structural recursions over `Int`/`Nat`, hence kernel-reducible. -/

/-- Numeric value of an ASCII digit. -/
def digitVal (c : Char) : Nat := c.toNat - '0'.toNat

/-- Numeric value of a digit string (most significant first). -/
def digitsVal (l : List Char) : Nat := l.foldl (fun acc c => acc * 10 + digitVal c) 0

structure Dec where
  num : Int
  exp : Nat
deriving DecidableEq, Repr

/-- Canonicalize `num / 10 ^ exp` by stripping factors of 10. -/
def Dec.norm (num : Int) : Nat → Dec
  | 0 => ⟨num, 0⟩
  | e + 1 => if num % 10 = 0 then Dec.norm (num / 10) e else ⟨num, e + 1⟩

/-- The rational value of a decimal. -/
def Dec.toRat (d : Dec) : ℚ := (d.num : ℚ) / (10 : ℚ) ^ d.exp

/-- Exact addition of decimals (aligning exponents, then renormalizing). -/
def Dec.add (a b : Dec) : Dec :=
  Dec.norm
    (a.num * (10 : Int) ^ (max a.exp b.exp - a.exp) +
     b.num * (10 : Int) ^ (max a.exp b.exp - b.exp))
    (max a.exp b.exp)

/-- Python's `sum(...)` over amounts (left fold from `0.0`). -/
def decSum (l : List Dec) : Dec := l.foldl Dec.add ⟨0, 0⟩

/-- A decimal given in cents, e.g. `Dec.cents 123456` is `1234.56`. -/
def Dec.cents (n : Int) : Dec := Dec.norm n 2

/-- The value `±(ip.fp)` from sign, integer digits and fraction digits. -/
def Dec.ofParts (neg : Bool) (ip fp : List Char) : Dec :=
  Dec.norm
    (if neg then -((digitsVal ip * 10 ^ fp.length + digitsVal fp : Nat) : Int)
     else ((digitsVal ip * 10 ^ fp.length + digitsVal fp : Nat) : Int))
    fp.length

theorem Dec.toRat_norm (num : Int) (e : Nat) :
    (Dec.norm num e).toRat = (num : ℚ) / (10 : ℚ) ^ e := by
  induction e generalizing num with
  | zero => simp [Dec.norm, Dec.toRat]
  | succ e ih =>
    rw [Dec.norm]
    split
    · rename_i h10
      rw [ih]
      have hdvd : (10 : Int) ∣ num := Int.dvd_of_emod_eq_zero h10
      obtain ⟨k, rfl⟩ := hdvd
      rw [Int.mul_ediv_cancel_left k (by norm_num)]
      push_cast
      rw [pow_succ]
      field_simp
      ring
    · rfl

theorem Dec.toRat_add (a b : Dec) :
    (a.add b).toRat = a.toRat + b.toRat := by
  have key : ∀ (x : Int) (e M : Nat), e ≤ M →
      (x : ℚ) * (10 : ℚ) ^ (M - e) / (10 : ℚ) ^ M = (x : ℚ) / (10 : ℚ) ^ e := by
    intro x e M h
    rw [div_eq_div_iff (by positivity) (by positivity), mul_assoc, ← pow_add,
      Nat.sub_add_cancel h]
  rw [Dec.add, Dec.toRat_norm, Dec.toRat, Dec.toRat]
  push_cast
  rw [add_div, key a.num a.exp _ (Nat.le_max_left _ _),
    key b.num b.exp _ (Nat.le_max_right _ _)]

/-! ### Python `float()` on the cleaned numeric strings

Every string fed to `float` by the source consists of digits, at most one
`.`, and an optional sign (commas/spaces stripped beforehand).  `pyFloat`
accepts exactly the shapes `float` accepts on that alphabet and returns the
exact decimal value (the embedding's stand-in for the binary float). -/

/-- Strip a leading minus sign, returning (negative?, rest). -/
def splitSign : List Char → Bool × List Char
  | '-' :: t => (true, t)
  | l => (false, l)

def pyFloat (s : String) : Option Dec :=
  match (splitSign s.toList).2.dropWhile isAsciiDigit with
  | [] =>
    if (splitSign s.toList).2.takeWhile isAsciiDigit = [] then none
    else some (Dec.ofParts (splitSign s.toList).1
      ((splitSign s.toList).2.takeWhile isAsciiDigit) [])
  | '.' :: t =>
    if t.dropWhile isAsciiDigit ≠ [] then none
    else if (splitSign s.toList).2.takeWhile isAsciiDigit = [] ∧
        t.takeWhile isAsciiDigit = [] then none
    else some (Dec.ofParts (splitSign s.toList).1
      ((splitSign s.toList).2.takeWhile isAsciiDigit) (t.takeWhile isAsciiDigit))
  | _ => none

/-! ### `normalize_category` (source lines 110-169) -/

/-- The fixed canonical-category table `_CATEGORY_CANON`. -/
def categoryCanon : List (String × String) := [
  ("ACCESS BONUS PAYMENT", "ACCESS BONUS PAYMENT"),
  ("LTC ACCESS BONUS PAYMENT", "LTC ACCESS BONUS PAYMENT"),
  ("GROUP MANAGEMENT LEADERSHIP PAYMENT", "GROUP MANAGEMENT LEADERSHIP PAYMENT"),
  ("OFFICE PRACTICE ADMINISTRATION PAYMENT", "OFFICE PRACTICE ADMINISTRATION PAYMENT"),
  ("HCP RELATIVITY PAYMENT", "HCP RELATIVITY PAYMENT"),
  ("RMB RELATIVITY PAYMENT", "RMB RELATIVITY PAYMENT"),
  ("WSIB RELATIVITY PAYMENT", "WSIB RELATIVITY PAYMENT"),
  ("YEAR 1 (2024-2025) COMPENSATION INCREASE", "YEAR 1 (2024-2025) COMPENSATION INCREASE"),
  ("NETWORK BASE RATE PAYMENT", "NETWORK BASE RATE PAYMENT"),
  ("BASE RATE PAYMENT RECONCILIATION ADJMT", "BASE RATE PAYMENT RECONCILIATION ADJMT"),
  ("BASE RATE ACUITY PAYMENT", "BASE RATE ACUITY PAYMENT"),
  ("BASE RATE ACUITY ADJUSTMENT", "BASE RATE ACUITY ADJUSTMENT"),
  ("COMP CARE CAPITATION", "COMP CARE CAPITATION"),
  ("COMP CARE RECONCILIATION", "COMP CARE RECONCILIATION"),
  ("BLENDED FEE-FOR-SERVICE PREMIUM", "BLENDED FEE-FOR-SERVICE PREMIUM"),
  ("BLENDED FEE FOR SERVICE PREMIUM", "BLENDED FEE-FOR-SERVICE PREMIUM"),
  ("PREVENTIVE CARE BONUS", "PREVENTIVE CARE BONUS"),
  ("TOTAL CLAIMS PAYABLE", "TOTAL CLAIMS PAYABLE"),
  ("AGE PREMIUM PAYMENT", "AGE PREMIUM PAYMENT"),
  ("SPECIAL PREMIUM PAYMENT", "SPECIAL PREMIUM PAYMENT")]

/-- Dictionary lookup `_CATEGORY_CANON[cat]` (keys are unique). -/
def canonFind (cat : String) : Option String :=
  (categoryCanon.find? (fun kv => kv.1 = cat)).map (·.2)

/-- `expectLit lit l`: consume the literal `lit` at the head of `l`. -/
def expectLit : List Char → List Char → Option (List Char)
  | [], l => some l
  | _ :: _, [] => none
  | p :: ps, c :: t => if p = c then expectLit ps t else none

/-- `takeExactDigits n l`: consume exactly `n` digits. -/
def takeExactDigits : Nat → List Char → Option (List Char × List Char)
  | 0, l => some ([], l)
  | _ + 1, [] => none
  | n + 1, c :: t =>
    if isAsciiDigit c then (takeExactDigits n t).map (fun dr => (c :: dr.1, dr.2))
    else none

/-- Match the tail of `\bYEAR\s*(\d)\s*\((\d{4}-\d{4})\)\s*COMPENSATION\s*INCREASE`
at the head of `l` (each `\s*` is deterministic because the following literal
never starts with whitespace).  Returns the two capture groups and the rest. -/
def yearMatch (l : List Char) : Option (Char × List Char × List Char) := do
  let r ← expectLit "YEAR".toList l
  let r := r.dropWhile pyIsWS
  match r with
  | d :: r =>
    if isAsciiDigit d then do
      let r := r.dropWhile pyIsWS
      let r ← expectLit "(".toList r
      let (a, r) ← takeExactDigits 4 r
      let r ← expectLit "-".toList r
      let (b, r) ← takeExactDigits 4 r
      let r ← expectLit ")".toList r
      let r := r.dropWhile pyIsWS
      let r ← expectLit "COMPENSATION".toList r
      let r := r.dropWhile pyIsWS
      let r ← expectLit "INCREASE".toList r
      some (d, a ++ '-' :: b, r)
    else none
  | [] => none

/-- Python's `\w` word-character class (ASCII range). -/
def isWordChar (c : Char) : Bool := isAsciiAlpha c || isAsciiDigit c || c = '_'

/-- Word-boundary check before `YEAR`: start of string or previous character
not a word character. -/
def yearBoundary : Option Char → Bool
  | none => true
  | some c => !isWordChar c

/-- `re.sub` scan for the `YEAR ... COMPENSATION INCREASE` pattern.  The fuel
starts at the string length; every step consumes at least one character, so
the fuel never runs out. -/
def yearSubGo : Nat → Option Char → List Char → List Char
  | 0, _, l => l
  | _ + 1, _, [] => []
  | fuel + 1, prev, c :: t =>
    if yearBoundary prev then
      match yearMatch (c :: t) with
      | some (d, rng, rest) =>
        ("YEAR ".toList ++ [d] ++ " (".toList ++ rng ++ ") COMPENSATION INCREASE".toList)
          ++ yearSubGo fuel (some 'E') rest
      | none => c :: yearSubGo fuel (some c) t
    else c :: yearSubGo fuel (some c) t

/-- `re.sub(r"\bYEAR\s*(\d)\s*\((\d{4}-\d{4})\)\s*COMPENSATION\s*INCREASE",
r"YEAR \1 (\2) COMPENSATION INCREASE", s)`. -/
def yearSub (s : String) : String :=
  String.mk (yearSubGo s.toList.length none s.toList)

/-- The normalization pipeline of `normalize_category` before the table
lookup (uppercase, dash variants, double-space collapse, YEAR respacing,
edge strip, FFS respellings, whitespace normalization). -/
def normCandidate (cat_raw : String) : String :=
  let cat := pyUpper cat_raw
  let cat := pyReplace cat "—" "-"
  let cat := pyReplace cat "–" "-"
  let cat := pyReplace cat "  " " "
  let cat := yearSub cat
  let cat := pyStripChars " :-" cat
  let cat := pyReplace cat "FEE - FOR - SERVICE" "FEE FOR SERVICE"
  let cat := pyReplace cat "FEE-FOR-SERVICE" "FEE-FOR-SERVICE"
  normalizeSpaces cat

/-- The canonical-table lookup: exact match, then dash-relaxed match. -/
def canonLookup (cat : String) : Option String :=
  match canonFind cat with
  | some v => some v
  | none => canonFind (pyReplace cat "-" " ")

/-- `normalize_category`: canonical value when the (possibly dash-relaxed)
pipeline result is in the table, otherwise the original input stripped of
surrounding whitespace. -/
def normalize_category (cat_raw : String) : String :=
  match canonLookup (normCandidate cat_raw) with
  | some v => v
  | none => pyStrip cat_raw

/-! ### `line_to_category_and_numbers` (source lines 172-205) -/

/-- `matchAt s pat i`: `pat` occurs in `s` at position `i`. -/
def matchAt (s pat : List Char) (i : Nat) : Bool := isPre pat (s.drop i)

/-- Index of the rightmost occurrence of `pat` in `s` (Python `str.rfind`). -/
def rfindIdx (s pat : List Char) : Option Nat :=
  ((List.range (s.length + 1)).reverse).find? (fun i => matchAt s pat i)

/-- `s.rsplit(sep, 1)[0]`: the part before the last occurrence of `sep`
(`s` itself when `sep` does not occur). -/
def pyRsplit1Before (s sep : String) : String :=
  match rfindIdx s.toList sep.toList with
  | some i => String.mk (s.toList.take i)
  | none => s

/-- The numeric tokens found on the stripped line. -/
def lineNums (line0 : String) : List String := findNums (pyStrip line0)

/-- The raw category head: the stripped line with the final two numeric
tokens removed (fast path when the line ends with `"tok2 tok1"`, otherwise
two right-splits), right-stripped. -/
def lineHead0 (line0 : String) : String :=
  let line := pyStrip line0
  let nums := lineNums line0
  let n2 := nums.getD (nums.length - 2) ""
  let n1 := nums.getD (nums.length - 1) ""
  let tl := n2 ++ " " ++ n1
  if pyEndsWith line tl then
    pyRstrip (String.mk (line.toList.take (line.toList.length - tl.toList.length)))
  else
    pyRstrip (pyRsplit1Before (pyRstrip (pyRsplit1Before line n1)) n2)

/-- The category head after `re.sub(r"\s+", " ", ...)` and
`.strip(":-–— ")`. -/
def lineHeadTrimmed (line0 : String) : String :=
  pyStripChars ":-–— " (String.mk (collapseWS (lineHead0 line0).toList))

/-- The last-but-one numeric token of a line (`nums[-2]`). -/
def lineTok2 (line0 : String) : String :=
  (lineNums line0).getD ((lineNums line0).length - 2) ""

/-- The last numeric token of a line (`nums[-1]`). -/
def lineTok1 (line0 : String) : String :=
  (lineNums line0).getD ((lineNums line0).length - 1) ""

/-- `line_to_category_and_numbers`: `(category, current_month, year_to_date)`
when the line ends with two currency-like numbers and the head has a letter,
`(None, None, None)` otherwise. -/
def line_to_category_and_numbers (line0 : String) :
    Option String × Option Dec × Option Dec :=
  let line := pyStrip line0
  if line = "" then (none, none, none)
  else
    let nums := findNums line
    if nums.length < 2 then (none, none, none)
    else
      match pyFloat (pyReplace (nums.getD (nums.length - 2) "") "," ""),
            pyFloat (pyReplace (nums.getD (nums.length - 1) "") "," "") with
      | some cur, some ytd =>
        if strHasAlpha (lineHead0 line0) = false then (none, none, none)
        else (some (normalize_category (lineHeadTrimmed line0)), some cur, some ytd)
      | _, _ => (none, none, none)

/-! ### `clean_provider_name_raw` (source lines 228-258) -/

/-- `_WORD_RE = ^[A-Za-z][A-Za-z\-']*$`. -/
def wordOk (tok : String) : Bool :=
  match tok.toList with
  | [] => false
  | c :: t => isAsciiAlpha c && t.all (fun x => isAsciiAlpha x || x = '-' || x = '\'')

/-- `_ONLY_SC_RE = ^[scSC]{2,}$`. -/
def onlySC (tok : String) : Bool :=
  2 ≤ tok.toList.length &&
    tok.toList.all (fun c => c = 's' || c = 'c' || c = 'S' || c = 'C')

/-- `str.title` (capitalize each letter after a non-letter, lowercase the
rest; ASCII). -/
def pyTitleGo : Bool → List Char → List Char
  | _, [] => []
  | prevAlpha, c :: t =>
    if isAsciiAlpha c then
      (if prevAlpha then lowChar c else upChar c) :: pyTitleGo true t
    else c :: pyTitleGo false t

/-- Python's `str.title()`. -/
def pyTitle (s : String) : String := String.mk (pyTitleGo false s.toList)

/-- `while len(tokens) >= 2 and len(tokens[-1]) == 1: tokens.pop()`, on the
reversed token list. -/
def popSingles : List String → List String
  | a :: b :: t => if a.length = 1 then popSingles (b :: t) else a :: b :: t
  | l => l

/-- `fix_case`: title-case with the special `Mc` rule. -/
def fix_case (t : String) : String :=
  if 3 ≤ t.toList.length && pyLower (String.mk (t.toList.take 2)) = "mc" then
    "Mc" ++ pyTitle (String.mk (t.toList.drop 2))
  else pyTitle t

/-- `clean_provider_name_raw`. -/
def clean_provider_name_raw (cand : String) : String :=
  let clean := String.mk (cand.toList.map (fun c =>
    if isAsciiAlpha c || pyIsWS c || c = '-' || c = '\'' then c else ' '))
  let clean := normalizeSpaces clean
  if clean = "" then ""
  else
    let tokens := (pySplit " " clean).filter (fun tok => wordOk tok && !onlySC tok)
    if tokens.length < 2 then ""
    else
      let tokens := tokens.take 4
      let tokens := (popSingles tokens.reverse).reverse
      String.intercalate " " (tokens.map fix_case)

/-! ### `_decoded_num_to_float` (source lines 873-909) -/

/-- Split at every whitespace character (used to decompose the
`(-?\d+(?:\s\d{3})+)\s(\d{2})` full match: each `\s` is a single character,
so the whitespace-separated segments determine the match). -/
def splitWsAux : List Char → List Char → List (List Char)
  | [], acc => [acc.reverse]
  | c :: t, acc =>
    if pyIsWS c then acc.reverse :: splitWsAux t []
    else splitWsAux t (c :: acc)

/-- `-?\d+` as a full match. -/
def signDigits : List Char → Bool
  | '-' :: t => !t.isEmpty && t.all isAsciiDigit
  | l => !l.isEmpty && l.all isAsciiDigit

/-- `\d{n}` as a full match. -/
def exactDigits (n : Nat) (l : List Char) : Bool :=
  l.length = n && l.all isAsciiDigit

/-- `re.fullmatch(r"(-?\d+(?:\s\d{3})+)\s(\d{2})", s)` and the value
`float(f"{int_part}.{dec}")` built from it (grouped thousands with a final
two-digit decimal group). -/
def matchGrouped (l : List Char) : Option Dec :=
  match splitWsAux l [] with
  | s0 :: rest =>
    if 2 ≤ rest.length ∧ signDigits s0 ∧ rest.dropLast.all (exactDigits 3) ∧
        exactDigits 2 (rest.getLastD []) then
      some (Dec.ofParts (splitSign s0).1
        ((splitSign s0).2 ++ rest.dropLast.flatten) (rest.getLastD []))
    else none
  | [] => none

/-- `re.fullmatch(r"(-?\d+)\s+(\d{2})", s)` and the value
`float(f"{g1}.{g2}")` built from it. -/
def matchSimple (l : List Char) : Option Dec :=
  let sd := splitSign l
  let ip := sd.2.takeWhile isAsciiDigit
  let r1 := sd.2.dropWhile isAsciiDigit
  let ws := r1.takeWhile pyIsWS
  let r2 := r1.dropWhile pyIsWS
  if !ip.isEmpty && !ws.isEmpty && exactDigits 2 r2 then
    some (Dec.ofParts sd.1 ip r2)
  else none

/-- `_decoded_num_to_float`: parse a decoded-text number token where control
characters act as separators (`\x0f` = thousands comma, `\x11` = decimal
point, `\x10` = minus), reconstructing a decimal point from a trailing
two-digit group when no dot is present. -/
def decodedNumToFloat (token : String) : Option Dec :=
  if token = "" then none
  else
    let orig := pyReplace (pyReplace (pyReplace token "\x0f" ",") "\x11" ".") "\x10" "-"
    let origTrim := pyStrip orig
    let viaGroups : Option Dec :=
      if strContains origTrim "." then none
      else
        match matchGrouped origTrim.toList with
        | some q => some q
        | none => matchSimple origTrim.toList
    match viaGroups with
    | some q => some q
    | none =>
      let s := pyReplace (pyReplace orig "," "") " " ""
      let s := String.mk (s.toList.filter (fun c => isAsciiDigit c || c = '.' || c = '-'))
      if s = "" || s = "-" || s = "." || s = "-." then none
      else pyFloat s

/-! ### `_iter_group_sections_from_decoded` (source lines 976-1037) -/

/-- Parse one matrix row `label=cur=ytd`, skipping subtotal rows whose
normalized label contains `TOTAL`. -/
def rowOfMatrixLine (ptype raw : String) : Option (String × String × Dec × Dec) :=
  if strContains raw "=" = false then none
  else
    let parts := (pySplit "=" raw).map pyStrip
    if parts.length < 3 then none
    else
      let label := normalize_category (parts.getD 0 "")
      if strContains (pyUpper label) "TOTAL" then none
      else
        match decodedNumToFloat (parts.getD (parts.length - 2) ""),
              decodedNumToFloat (parts.getD (parts.length - 1) "") with
        | some cur, some ytd => some (ptype, label, cur, ytd)
        | _, _ => none

/-- The per-line state of the section scanner: active payment type and
whether the current-month/year-to-date matrix header has been seen. -/
structure SectionState where
  ptype : Option String
  matrix : Bool
deriving Repr, DecidableEq

/-- One line of the `_iter_group_sections_from_decoded` loop: header
detection in source order, then (when inside a section matrix) a row parse. -/
def sectionStep (st : SectionState) (raw : String) :
    SectionState × Option (String × String × Dec × Dec) :=
  let up := pyUpper raw
  if strContains up "GROUP PAYMENTS TO PROVIDER" then (⟨none, false⟩, none)
  else if strContains up "GROUP PAYMENTS ALL PROVIDERS" then
    (⟨some "GROUP PAYMENTS ALL PROVIDERS", false⟩, none)
  else if strContains up "SUMMARY" && strContains up "ALL PROVIDERS" then
    (⟨some "SUMMARY ALL PROVIDERS", false⟩, none)
  else
    let hasMatrixHeader := strContains up "CURRENT MONTH" && strContains up "YEAR TO DATE"
    if strContains up "GROUP PAYMENTS" && !strContains up "EXCEPTION" then
      (⟨some "GROUP PAYMENTS", hasMatrixHeader || st.matrix⟩, none)
    else if strContains up "EXCEPTION PAYMENTS" then
      (⟨some "EXCEPTION PAYMENTS", hasMatrixHeader || st.matrix⟩, none)
    else
      match st.ptype with
      | some pt =>
        if hasMatrixHeader then (⟨some pt, true⟩, none)
        else if !st.matrix then (st, none)
        else (st, rowOfMatrixLine pt raw)
      | none => (st, none)

/-- Run the section scanner over a list of lines, collecting emitted rows. -/
def sectionRun : SectionState → List String → List (String × String × Dec × Dec)
  | _, [] => []
  | st, raw :: rest =>
    match sectionStep st raw with
    | (st', some r) => r :: sectionRun st' rest
    | (st', none) => sectionRun st' rest

/-- `_iter_group_sections_from_decoded`: the state persists across pages;
each page is split into lines and control characters become spaces. -/
def iterGroupSections (pagesDec : List String) : List (String × String × Dec × Dec) :=
  sectionRun ⟨none, false⟩
    ((pagesDec.map fun pg => (pySplitlines pg).map normCtrl).flatten)

/-! ### Provider entries and totals (source lines 363-387 and 1339-1360) -/

/-- A `ProviderEntry` dict as assembled by `main`: name, optional numeric id,
category rows, and (optionally pre-computed) totals. -/
structure ProviderEntry where
  name : String
  id : Option String
  rows : List (String × Dec × Dec)
  total_cur : Option Dec
  total_ytd : Option Dec
deriving Repr, DecidableEq

/-- `"TOTAL CLAIMS PAYABLE" in cat.upper()`. -/
def isTotalClaimsRow (r : String × Dec × Dec) : Bool :=
  strContains (pyUpper r.1) "TOTAL CLAIMS PAYABLE"

/-- The totals computed in `main` for a provider's rows: the first explicit
`TOTAL CLAIMS PAYABLE` row when present, else the sums over all rows
(`sum` of the empty list is `0`, matching the hybrid branch's `else 0.0`). -/
def mainTotals (rows : List (String × Dec × Dec)) : Dec × Dec :=
  match rows.find? isTotalClaimsRow with
  | some r => (r.2.1, r.2.2)
  | none => (decSum (rows.map fun r => r.2.1), decSum (rows.map fun r => r.2.2))

/-- A provider entry as `main` builds it from a name and parsed rows. -/
def providerEntryOfRows (name : String) (rows : List (String × Dec × Dec)) :
    ProviderEntry :=
  { name := name, id := none, rows := rows,
    total_cur := some (mainTotals rows).1, total_ytd := some (mainTotals rows).2 }

/-- The `(current, ytd)` pair written to `provider_totals.csv` for an entry
by `write_provider_csvs_from_entries`: the entry's totals, recomputed as row
sums when either is missing. -/
def writtenTotals (p : ProviderEntry) : Dec × Dec :=
  match p.total_cur, p.total_ytd with
  | some a, some b => (a, b)
  | _, _ => (decSum (p.rows.map fun r => r.2.1), decSum (p.rows.map fun r => r.2.2))

/-! ### `_looks_like_noise` (source lines 495-520) -/

/-- The decorative-punctuation class `[~*_\-\s\[\]\(\)\|=\\/]`. -/
def noiseClass (c : Char) : Bool :=
  c = '~' || c = '*' || c = '_' || c = '-' || pyIsWS c || c = '[' || c = ']' ||
  c = '(' || c = ')' || c = '|' || c = '=' || c = '\\' || c = '/'

/-- `k` consecutive copies of `c` at the head of the list. -/
def runPre (c : Char) : Nat → List Char → Bool
  | 0, _ => true
  | _ + 1, [] => false
  | k + 1, x :: t => x = c && runPre c k t

/-- `re.search(c{k,})`: `k` consecutive copies of `c` anywhere. -/
def hasRun (c : Char) (k : Nat) : List Char → Bool
  | [] => runPre c k []
  | x :: t => runPre c k (x :: t) || hasRun c k t

/-- `_looks_like_noise`: decorative/garbled line detection.  The final test
models the float comparison `alnum / max(len(s), 1) < 0.15` by the exact
rational comparison `20 * alnum < 3 * max(len(s), 1)` (the two agree unless
the ratio is within one float ulp of 0.15, which no line here approaches). -/
def looksLikeNoise (line : String) : Bool :=
  if pyStrip line = "" then true
  else if (pyStrip line).toList.all noiseClass then true
  else if hasRun '~' 3 (pyStrip line).toList || hasRun '*' 3 (pyStrip line).toList ||
      hasRun '_' 3 (pyStrip line).toList || hasRun '-' 5 (pyStrip line).toList then true
  else if (pyUpper (pyStrip line)).toList.all (fun c => c = 'S' || c = 'C' || pyIsWS c) &&
      6 ≤ ((pyUpper (pyStrip line)).toList.filter (fun c => c ≠ ' ')).length then true
  else
    decide (((pyStrip line).toList.filter
      (fun c => isAsciiAlpha c || isAsciiDigit c)).length * 20 <
        3 * max (pyStrip line).toList.length 1)

/-! ### `extract_provider_name_from_page` and `parse_provider_page`
(source lines 273-323) -/

/-- `extract_provider_name_from_page`: find the line index of
`NETWORK BASE RATE PAYMENT` (or fall back to index 0 when some early line
looks like text), then keep the last nonempty cleaned candidate from the six
lines above it. -/
def extract_provider_name_from_page (page_text : String) : String :=
  let lines := pySplitlines (normCtrl page_text)
  let idx : Option Nat :=
    match lines.findIdx? (fun ln => strContains (pyUpper ln) "NETWORK BASE RATE PAYMENT") with
    | some i => some i
    | none =>
      if (lines.take 10).any
          (fun ln => strHasAlpha (pyStrip ln) && (pyStrip ln).toList.length ≤ 60)
      then some 0 else none
  match idx with
  | none => "Unknown Provider"
  | some i =>
    let name := (List.range' (i - 6) (i - (i - 6))).foldl
      (fun acc j =>
        let cleaned := clean_provider_name_raw (pyStrip (lines.getD j ""))
        if cleaned = "" then acc else some cleaned)
      none
    match name with
    | some n => n
    | none => "Unknown Provider"

/-- The meta/noise category filter of `parse_provider_page`. -/
def providerPageMetaTokens : List String :=
  ["REPORT:", "GROUP #", "RUN DATE", "PAGE:", "BROOKLIN MEDICAL CENTRE",
   "OHIP PAYMENT SUMMARY", "FOR PERIOD", "REMITTANCE"]

/-- `parse_provider_page`: provider name plus the category rows of the page
(a row is kept when the category is non-`None`, in which case the amounts are
non-`None` too, and the category is not a meta token). -/
def parse_provider_page (page_text : String) : String × List (String × Dec × Dec) :=
  (extract_provider_name_from_page page_text,
   (pySplitlines page_text).filterMap (fun raw =>
     match line_to_category_and_numbers raw with
     | (some cat, some cur, some ytd) =>
       if providerPageMetaTokens.any (fun k => strContains (pyUpper cat) k) then none
       else some (cat, cur, ytd)
     | _ => none))

/-! ### `parse_group_categories` (source lines 208-225) -/

/-- `categories[cat] = (cur, ytd)` on an insertion-ordered dict. -/
def upsertRow (l : List (String × Dec × Dec)) (k : String) (v : Dec × Dec) :
    List (String × Dec × Dec) :=
  match l with
  | [] => [(k, v.1, v.2)]
  | (k0, a, b) :: t =>
    if k0 = k then (k0, v.1, v.2) :: t else (k0, a, b) :: upsertRow t k v

/-- The meta/noise category filter of `parse_group_categories`. -/
def groupMetaTokens : List String :=
  ["REPORT:", "GROUP #", "RUN DATE", "PAGE:", "BROOKLIN MEDICAL CENTRE",
   "OHIP PAYMENT SUMMARY"]

/-- `parse_group_categories`: category rows collected from the first two
pages into an insertion-ordered dict (later lines overwrite earlier ones). -/
def parse_group_categories (pages : List String) : List (String × Dec × Dec) :=
  (pages.take 2).foldl
    (fun acc pg =>
      (pySplitlines pg).foldl
        (fun acc raw =>
          match line_to_category_and_numbers raw with
          | (some cat, some cur, some ytd) =>
            if groupMetaTokens.any (fun k => strContains (pyUpper cat) k) then acc
            else upsertRow acc cat (cur, ytd)
          | _ => acc)
        acc)
    []

/-- The non-hybrid `main` record building (source lines 1339-1360): provider
entries from `pages[2:]`, with totals from the first `TOTAL CLAIMS PAYABLE`
row or the row sums. -/
def mainEntriesNonHybrid (pages : List String) : List ProviderEntry :=
  (if 2 < pages.length then pages.drop 2 else []).map
    (fun page =>
      providerEntryOfRows (parse_provider_page page).1 (parse_provider_page page).2)

/-! ### `write_combined_readable_text` (text part, source lines 390-438) -/

/-- Digits of a natural number, most significant first (`"0"` for zero).
Fuel-based structural recursion (`n / 10` strictly decreases). -/
def natToDigitsGo : Nat → Nat → List Char → List Char
  | 0, _, acc => acc
  | fuel + 1, n, acc =>
    if n < 10 then Char.ofNat (n + 48) :: acc
    else natToDigitsGo fuel (n / 10) (Char.ofNat (n % 10 + 48) :: acc)

def natToDigits (n : Nat) : List Char := natToDigitsGo (n + 1) n []

/-- Insert a `,` every three digits, counting from the right (input and
output reversed). -/
def revGroup : List Char → List Char
  | a :: b :: c :: d :: t => a :: b :: c :: ',' :: revGroup (d :: t)
  | l => l

def groupCommas (ds : List Char) : List Char := (revGroup ds.reverse).reverse

/-- The exact number of cents of an amount, rounding half-to-even when the
decimal has more than two places (Python's `:,.2f` formatting rounds the
float value; it is exact for the two-decimal amounts the parser produces). -/
def Dec.toCentsRounded (d : Dec) : Int :=
  if d.exp ≤ 2 then d.num * (10 : Int) ^ (2 - d.exp)
  else
    if 2 * (d.num % (10 : Int) ^ (d.exp - 2)) < (10 : Int) ^ (d.exp - 2) then
      d.num / (10 : Int) ^ (d.exp - 2)
    else if 2 * (d.num % (10 : Int) ^ (d.exp - 2)) > (10 : Int) ^ (d.exp - 2) then
      d.num / (10 : Int) ^ (d.exp - 2) + 1
    else if (d.num / (10 : Int) ^ (d.exp - 2)) % 2 = 0 then
      d.num / (10 : Int) ^ (d.exp - 2)
    else d.num / (10 : Int) ^ (d.exp - 2) + 1

/-- Python's `f"{x:,.2f}"`: sign, comma-grouped integer part, two decimals. -/
def fmtMoney (x : Dec) : String :=
  String.mk ((if x.toCentsRounded < 0 then ['-'] else []) ++
    groupCommas (natToDigits (x.toCentsRounded.natAbs / 100)) ++
    '.' :: [Char.ofNat (x.toCentsRounded.natAbs % 100 / 10 + 48),
            Char.ofNat (x.toCentsRounded.natAbs % 100 % 10 + 48)])

/-- The metadata dict (all fields optional strings, as `parse_metadata`
produces). -/
structure Meta where
  period_from : Option String
  period_to : Option String
  remittance_advice : Option String
  run_date : Option String
  group_name : Option String
  group_no : Option String
  payment_to : Option String
deriving Repr, DecidableEq

/-- Python truthiness of `meta.get(...)`: present and nonempty. -/
def truthy : Option String → Bool
  | none => false
  | some s => s ≠ ""

/-- The empty metadata (what `parse_metadata` returns on a blank page). -/
def metaNone : Meta := ⟨none, none, none, none, none, none, none⟩

/-- `_META_TOKENS` (source line 113), used by the readable-text row filter. -/
def metaTokens : List String :=
  ["REPORT", "RUN DATE", "PAGE:", "GROUP #", "REMITTANCE", "FOR PERIOD",
   "OHIP PAYMENT SUMMARY"]

/-- ` (ID: ...)` suffix when the entry has a (truthy) id. -/
def providerIdSuffix (p : ProviderEntry) : String :=
  if truthy p.id then " (ID: " ++ p.id.getD "" ++ ")" else ""

/-- The detail-row line `f"  - {cat}: {cur:,.2f}; {ytd:,.2f}"` of
`build_text`. -/
def renderDetailLine (cat : String) (cur ytd : Dec) : String :=
  "  - " ++ cat ++ ": " ++ fmtMoney cur ++ "; " ++ fmtMoney ytd

/-- The line list built by `build_text` in
`write_combined_readable_text` (entries built by `main` always carry totals;
`getD` supplies the unused default). -/
def buildTextLines (meta : Meta) (group_rows : List (String × Dec × Dec))
    (providers : List ProviderEntry) : List String :=
  ["OHIP Payment Summary"]
  ++ (if truthy meta.period_from && truthy meta.period_to then
       ["Period: " ++ meta.period_from.getD "" ++ " to " ++ meta.period_to.getD ""]
      else [])
  ++ (if truthy meta.remittance_advice then
       ["Remittance Advice: " ++ meta.remittance_advice.getD ""] else [])
  ++ (if truthy meta.run_date then ["Run Date: " ++ meta.run_date.getD ""] else [])
  ++ (if truthy meta.group_name || truthy meta.group_no || truthy meta.payment_to then
       ["Group: " ++ String.intercalate " "
          ((if truthy meta.group_name then [meta.group_name.getD ""] else []) ++
           (if truthy meta.group_no then ["#" ++ meta.group_no.getD ""] else []) ++
           (if truthy meta.payment_to then
             ["(Payment to: " ++ meta.payment_to.getD "" ++ ")"] else []))]
      else [])
  ++ [""]
  ++ ["Group Summary (Current Month; Year to Date):"]
  ++ group_rows.map (fun r => "- " ++ r.1 ++ ": " ++ fmtMoney r.2.1 ++ "; " ++ fmtMoney r.2.2)
  ++ [""]
  ++ ["Providers Index (TOTAL CLAIMS PAYABLE):"]
  ++ providers.map (fun p =>
       "- " ++ p.name ++ providerIdSuffix p ++ ": " ++
         fmtMoney (p.total_cur.getD ⟨0, 0⟩) ++ "; " ++ fmtMoney (p.total_ytd.getD ⟨0, 0⟩))
  ++ [""]
  ++ ["Provider Details:"]
  ++ (providers.map (fun p =>
       ["Provider: " ++ p.name ++ providerIdSuffix p] ++
       (p.rows.filterMap (fun r =>
          if metaTokens.any (fun tok => strContains (pyUpper r.1) tok) then none
          else some (renderDetailLine r.1 r.2.1 r.2.2))) ++
       [""])).flatten

/-- `build_text`: `"\n".join(lines).strip() + "\n"`. -/
def build_text (meta : Meta) (group_rows : List (String × Dec × Dec))
    (providers : List ProviderEntry) : String :=
  pyStrip (String.intercalate "\n" (buildTextLines meta group_rows providers)) ++ "\n"

/-- Re-extract `(category, current, ytd)` triples from a rendered text via
the same line heuristic. -/
def extractTriples (text : String) : List (String × Dec × Dec) :=
  (pySplitlines text).filterMap (fun ln =>
    match line_to_category_and_numbers ln with
    | (some c, some a, some b) => some (c, a, b)
    | _ => none)

/-- The parsed records of a (non-hybrid) run, as triples: group categories
plus every provider row. -/
def roundTripOriginal (pages : List String) : List (String × Dec × Dec) :=
  parse_group_categories pages ++
    ((mainEntriesNonHybrid pages).map (fun p => p.rows)).flatten

/-- Render the parsed records to `combined_readable.txt` and re-extract. -/
def roundTripExtracted (meta : Meta) (pages : List String) :
    List (String × Dec × Dec) :=
  extractTriples
    (build_text meta (parse_group_categories pages) (mainEntriesNonHybrid pages))

/-- No line of any page looks like noise. -/
def noiseFreePages (pages : List String) : Bool :=
  ((pages.map pySplitlines).flatten).all (fun ln => !looksLikeNoise ln)

/-! Clean category labels: the sufficient condition for the round trip -/

/-- No two adjacent whitespace characters. -/
def noAdjWS : List Char → Bool
  | a :: b :: t => !(pyIsWS a && pyIsWS b) && noAdjWS (b :: t)
  | _ => true

/-- Single alpha char test on an optional char. -/
def optAlpha : Option Char → Bool
  | some c => isAsciiAlpha c
  | none => false

/-- A category label that renders and re-parses cleanly: nonempty, made of
ASCII letters, spaces and hyphens, starting and ending with a letter, with
no two adjacent spaces. -/
def CatClean (cat : String) : Bool :=
  optAlpha cat.toList.head? && optAlpha cat.toList.getLast? &&
    cat.toList.all (fun c => isAsciiAlpha c || c = ' ' || c = '-') &&
    noAdjWS cat.toList

/-! ## Supporting lemmas for the claims -/

theorem splitSign_of_ne {d0 : Char} (h : d0 ≠ '-') (rest : List Char) :
    splitSign (d0 :: rest) = (false, d0 :: rest) := by
  rw [splitSign.eq_def]
  split
  · rename_i heq
    injection heq with h1 h2
    exact absurd h1 h
  · rfl

theorem pyReplace_comma (t : String) :
    pyReplace t "," "" = String.mk (t.toList.filter (fun c => c ≠ ',')) := by
  have aux : ∀ (fuel : Nat) (l : List Char), l.length ≤ fuel →
      pyReplaceAux [','] [] fuel l = l.filter (fun c => c ≠ ',') := by
    intro fuel
    induction fuel with
    | zero =>
      intro l hl
      rw [Nat.le_zero, List.length_eq_zero] at hl
      subst hl
      rfl
    | succ n ih =>
      intro l hl
      cases l with
      | nil => rfl
      | cons c t =>
        simp only [List.length_cons] at hl
        by_cases hc : c = ','
        · subst hc
          have hpre : isPre [','] (',' :: t) = true := by simp [isPre]
          rw [pyReplaceAux, if_pos hpre]
          simp only [List.nil_append, List.length_cons, List.length_nil,
            List.drop_succ_cons, List.drop_zero]
          rw [ih t (by omega)]
          simp
        · have hpre : isPre [','] (c :: t) = false := by
            simp [isPre, eq_comm, hc]
          rw [pyReplaceAux, if_neg (by simp [hpre])]
          rw [ih t (by omega)]
          simp [hc]
  unfold pyReplace
  rw [if_neg (by simp)]
  have h1 : ",".toList = [','] := rfl
  have h2 : "".toList = ([] : List Char) := rfl
  rw [h1, h2, aux _ _ (le_refl _)]

theorem takeWhile_append_all {p : Char → Bool} {A : List Char} (B : List Char)
    (hA : ∀ c ∈ A, p c = true) :
    (A ++ B).takeWhile p = A ++ B.takeWhile p ∧ (A ++ B).dropWhile p = B.dropWhile p := by
  induction A with
  | nil => simp
  | cons a A ih =>
    have ha : p a = true := hA a (by simp)
    have ih' := ih (fun c hc => hA c (by simp [hc]))
    simp [List.takeWhile_cons, List.dropWhile_cons, ha, ih'.1, ih'.2]

theorem takeWhile_all {A : List Char} {p : Char → Bool} (hA : ∀ c ∈ A, p c = true) :
    A.takeWhile p = A ∧ A.dropWhile p = [] := by
  have := takeWhile_append_all (p := p) [] hA
  simpa using this

theorem pyFloat_isSome_of_shape (sgn ds e : List Char)
    (hs : sgn = [] ∨ sgn = ['-']) (hd : ds ≠ []) (hds : ∀ c ∈ ds, isAsciiDigit c = true)
    (he : e = [] ∨ ∃ a b, e = ['.', a, b] ∧ isAsciiDigit a = true ∧ isAsciiDigit b = true) :
    (pyFloat (String.mk (sgn ++ ds ++ e))).isSome = true := by
  obtain ⟨d0, ds', rfl⟩ : ∃ d0 ds', ds = d0 :: ds' := by
    cases ds with
    | nil => exact absurd rfl hd
    | cons a b => exact ⟨a, b, rfl⟩
  have hd0 : isAsciiDigit d0 = true := hds d0 (by simp)
  have hd0ne : d0 ≠ '-' := by
    intro hdd
    rw [hdd] at hd0
    simp [isAsciiDigit] at hd0
  have htoList : (String.mk (sgn ++ (d0 :: ds') ++ e)).toList = sgn ++ (d0 :: ds') ++ e := rfl
  have hsplit := takeWhile_append_all (p := isAsciiDigit) e hds
  unfold pyFloat
  rw [htoList]
  cases hs with
  | inl h =>
    subst h
    simp only [List.nil_append, List.cons_append] at hsplit ⊢
    rw [splitSign_of_ne hd0ne]
    dsimp only
    rw [hsplit.2, hsplit.1]
    cases he with
    | inl h2 => subst h2; simp
    | inr h2 =>
      obtain ⟨a, b, rfl, ha, hb⟩ := h2
      simp only [List.dropWhile, List.takeWhile]
      rw [show isAsciiDigit '.' = false from rfl]
      simp [ha, hb]
  | inr h =>
    subst h
    simp only [List.cons_append, List.nil_append] at hsplit ⊢
    rw [show splitSign ('-' :: d0 :: (ds' ++ e)) = (true, d0 :: (ds' ++ e)) from rfl]
    dsimp only
    rw [hsplit.2, hsplit.1]
    cases he with
    | inl h2 => subst h2; simp
    | inr h2 =>
      obtain ⟨a, b, rfl, ha, hb⟩ := h2
      simp only [List.dropWhile, List.takeWhile]
      rw [show isAsciiDigit '.' = false from rfl]
      simp [ha, hb]

theorem digit_ne_comma {c : Char} (h : isAsciiDigit c = true) : (c ≠ ',') = True := by
  simp only [ne_eq, eq_iff_iff, iff_true]
  intro hc
  rw [hc] at h
  exact absurd h (by decide)

theorem takeUpTo3Digits_digits (l : List Char) :
    ∀ c ∈ (takeUpTo3Digits l).1, isAsciiDigit c = true := by
  intro c hc
  unfold takeUpTo3Digits at hc
  dsimp only at hc
  exact List.mem_takeWhile_imp (List.mem_of_mem_take hc)

theorem takeUpTo3Digits_ne_nil {c : Char} {t : List Char} (hc : isAsciiDigit c = true) :
    (takeUpTo3Digits (c :: t)).1 ≠ [] := by
  unfold takeUpTo3Digits
  dsimp only
  rw [List.takeWhile_cons_of_pos hc]
  simp

theorem takeGroups_chars (l : List Char) :
    ∀ x ∈ (takeGroups l).1, isAsciiDigit x = true ∨ x = ',' := by
  induction l using takeGroups.induct with
  | case1 a b c t hd ih =>
    intro x hx
    rw [takeGroups, if_pos hd] at hx
    dsimp only at hx
    simp only [Bool.and_eq_true] at hd
    simp only [List.mem_cons] at hx
    rcases hx with rfl | rfl | rfl | rfl | hx
    · right; rfl
    · left; exact hd.1.1
    · left; exact hd.1.2
    · left; exact hd.2
    · exact ih x hx
  | case2 a b c t hd =>
    intro x hx
    rw [takeGroups, if_neg hd] at hx
    simp at hx
  | case3 l h =>
    intro x hx
    rw [takeGroups.eq_def] at hx
    split at hx
    · exfalso; apply h <;> rfl
    · simp at hx

theorem takeDec_shape (l : List Char) :
    (takeDec l).1 = [] ∨
    ∃ a b, (takeDec l).1 = ['.', a, b] ∧ isAsciiDigit a = true ∧ isAsciiDigit b = true := by
  rw [takeDec.eq_def]
  split
  · rename_i a b t
    split
    · rename_i hab
      simp only [Bool.and_eq_true] at hab
      exact Or.inr ⟨a, b, rfl, hab.1, hab.2⟩
    · exact Or.inl rfl
  · exact Or.inl rfl

theorem numCore_shape {l tok rest : List Char} (h : numCore l = some (tok, rest)) :
    ∃ d g e, tok = d ++ g ++ e ∧ d ≠ [] ∧ (∀ c ∈ d, isAsciiDigit c = true) ∧
      (∀ c ∈ g, isAsciiDigit c = true ∨ c = ',') ∧
      (e = [] ∨ ∃ a b, e = ['.', a, b] ∧ isAsciiDigit a = true ∧ isAsciiDigit b = true) := by
  cases l with
  | nil => simp [numCore] at h
  | cons c t =>
    rw [numCore] at h
    by_cases hc : isAsciiDigit c
    · rw [if_pos hc] at h
      simp only [Option.some.injEq, Prod.mk.injEq] at h
      exact ⟨_, _, _, h.1.symm, takeUpTo3Digits_ne_nil hc,
        takeUpTo3Digits_digits _, takeGroups_chars _, takeDec_shape _⟩
    · rw [if_neg hc] at h
      simp at h

theorem tok_parses_core {d g e : List Char} (hd : d ≠ [])
    (hds : ∀ c ∈ d, isAsciiDigit c = true)
    (hg : ∀ c ∈ g, isAsciiDigit c = true ∨ c = ',')
    (he : e = [] ∨ ∃ a b, e = ['.', a, b] ∧ isAsciiDigit a = true ∧ isAsciiDigit b = true)
    (sgn : List Char) (hs : sgn = [] ∨ sgn = ['-']) :
    (pyFloat (String.mk ((sgn ++ (d ++ g ++ e)).filter (fun c => c ≠ ',')))).isSome = true := by
  have hfd : d.filter (fun c => c ≠ ',') = d :=
    List.filter_eq_self.mpr (fun c hc => by simp [digit_ne_comma (hds c hc)])
  have hfe : e.filter (fun c => c ≠ ',') = e := by
    rcases he with rfl | ⟨a, b, rfl, ha, hb⟩
    · rfl
    · apply List.filter_eq_self.mpr
      intro c hc
      simp only [List.mem_cons] at hc
      rcases hc with rfl | rfl | rfl | hc
      · decide
      · simp [digit_ne_comma ha]
      · simp [digit_ne_comma hb]
      · simp at hc
  have hfs : sgn.filter (fun c => c ≠ ',') = sgn := by
    rcases hs with rfl | rfl
    · rfl
    · decide
  have key : (sgn ++ (d ++ g ++ e)).filter (fun c => c ≠ ',') =
      sgn ++ (d ++ g.filter (fun c => c ≠ ',')) ++ e := by
    simp only [List.filter_append, hfd, hfe, hfs, List.append_assoc]
  rw [key]
  apply pyFloat_isSome_of_shape sgn (d ++ g.filter (fun c => c ≠ ',')) e hs
  · intro hnil
    exact hd (List.append_eq_nil.mp hnil).1
  · intro c hc
    rcases List.mem_append.mp hc with h1 | h2
    · exact hds c h1
    · obtain ⟨hcg, hcne⟩ := List.mem_filter.mp h2
      rcases hg c hcg with hdig | rfl
      · exact hdig
      · simp at hcne
  · exact he

theorem numTok_parses {l tok rest : List Char} (h : numTry l = some (tok, rest)) :
    (pyFloat (pyReplace (String.mk tok) "," "")).isSome = true := by
  rw [pyReplace_comma]
  have htl : (String.mk tok).toList = tok := rfl
  rw [htl]
  rw [numTry.eq_def] at h
  split at h
  · rename_i t
    cases hc : numCore t with
    | none => rw [hc] at h; simp at h
    | some pr =>
      obtain ⟨tk, r⟩ := pr
      rw [hc] at h
      simp only [Option.some.injEq, Prod.mk.injEq] at h
      obtain ⟨d, g, e, htk, hd, hds, hg, he⟩ := numCore_shape hc
      have : tok = ['-'] ++ (d ++ g ++ e) := by
        rw [← h.1, htk]
        rfl
      rw [this]
      exact tok_parses_core hd hds hg he ['-'] (Or.inr rfl)
  · obtain ⟨d, g, e, htk, hd, hds, hg, he⟩ := numCore_shape h
    have : tok = [] ++ (d ++ g ++ e) := by rw [htk]; rfl
    rw [this]
    exact tok_parses_core hd hds hg he [] (Or.inl rfl)

theorem findNums_tokens_parse (s : String) :
    ∀ t ∈ findNums s, (pyFloat (pyReplace t "," "")).isSome = true := by
  unfold findNums
  generalize s.toList = l
  generalize l.length = fuel
  induction fuel generalizing l with
  | zero =>
    intro t ht
    cases l <;> simp [findNumsAux] at ht
  | succ n ih =>
    intro t ht
    cases l with
    | nil => simp [findNumsAux] at ht
    | cons c cs =>
      rw [findNumsAux] at ht
      cases hnt : numTry (c :: cs) with
      | some pr =>
        obtain ⟨tk, rest⟩ := pr
        rw [hnt] at ht
        simp only [List.mem_cons] at ht
        rcases ht with rfl | ht
        · exact numTok_parses hnt
        · exact ih rest t ht
      | none =>
        rw [hnt] at ht
        exact ih cs t ht

theorem canonFind_mem {c v : String} (h : canonFind c = some v) :
    v ∈ categoryCanon.map (fun kv => kv.2) := by
  unfold canonFind at h
  obtain ⟨kv, hf, he⟩ := Option.map_eq_some'.mp h
  exact he ▸ List.mem_map_of_mem _ (List.mem_of_find?_eq_some hf)

theorem canonLookup_mem {c v : String} (h : canonLookup c = some v) :
    v ∈ categoryCanon.map (fun kv => kv.2) := by
  unfold canonLookup at h
  split at h
  · exact canonFind_mem (by rw [‹canonFind c = some _›]; exact h)
  · exact canonFind_mem h

set_option maxRecDepth 400000 in
theorem canon_values_fixed :
    ∀ v ∈ categoryCanon.map (fun kv => kv.2), normalize_category v = v := by
  decide

theorem rowOfMatrixLine_no_total {pt raw : String} {r : String × String × Dec × Dec}
    (h : rowOfMatrixLine pt raw = some r) :
    strContains (pyUpper r.2.1) "TOTAL" = false := by
  unfold rowOfMatrixLine at h
  split at h
  · exact absurd h (by simp)
  · dsimp only at h
    split at h
    · exact absurd h (by simp)
    · split at h
      · exact absurd h (by simp)
      · rename_i hguard
        split at h
        · rename_i cur ytd hcur hytd
          simp only [Option.some.injEq] at h
          subst h
          simpa using hguard
        · exact absurd h (by simp)

theorem sectionStep_no_total {st : SectionState} {raw : String}
    {r : String × String × Dec × Dec}
    (h : (sectionStep st raw).2 = some r) :
    strContains (pyUpper r.2.1) "TOTAL" = false := by
  unfold sectionStep at h
  dsimp only at h
  repeat' split at h
  all_goals simp_all
  exact rowOfMatrixLine_no_total h

theorem sectionRun_no_total :
    ∀ (lines : List String) (st : SectionState) (r : String × String × Dec × Dec),
      r ∈ sectionRun st lines → strContains (pyUpper r.2.1) "TOTAL" = false := by
  intro lines
  induction lines with
  | nil => intro st r hr; simp [sectionRun] at hr
  | cons raw rest ih =>
    intro st r hr
    rw [sectionRun] at hr
    rcases hstep : sectionStep st raw with ⟨st', em⟩
    rw [hstep] at hr
    cases em with
    | some r0 =>
      simp only [List.mem_cons] at hr
      rcases hr with rfl | hr
      · exact sectionStep_no_total (by rw [hstep])
      · exact ih st' r hr
    | none => exact ih st' r hr

/-! ### Supporting lemmas for the claim 4 round trip -/

/-! C4 amended machinery: digit rendering -/

theorem char_toNat_ofNat {n : Nat} (h : n < 55296) : (Char.ofNat n).toNat = n := by
  have hv : n.isValidChar := Or.inl h
  unfold Char.ofNat
  rw [dif_pos hv]
  rfl

theorem digitChar_digit {k : Nat} (h : k < 10) :
    isAsciiDigit (Char.ofNat (k + 48)) = true ∧ digitVal (Char.ofNat (k + 48)) = k ∧
      Char.ofNat (k + 48) ≠ ',' ∧ Char.ofNat (k + 48) ≠ '-' := by
  have ht : (Char.ofNat (k + 48)).toNat = k + 48 := char_toNat_ofNat (by omega)
  refine ⟨?_, ?_, ?_, ?_⟩
  · simp only [isAsciiDigit, Bool.and_eq_true, decide_eq_true_eq]
    constructor
    · show '0' ≤ Char.ofNat (k + 48)
      show '0'.toNat ≤ (Char.ofNat (k + 48)).toNat
      rw [ht]; show 48 ≤ k + 48; omega
    · show Char.ofNat (k + 48) ≤ '9'
      show (Char.ofNat (k + 48)).toNat ≤ '9'.toNat
      rw [ht]; show k + 48 ≤ 57; omega
  · unfold digitVal
    rw [ht]
    show k + 48 - 48 = k
    omega
  · intro hc
    have h2 := congrArg Char.toNat hc
    rw [ht] at h2
    have h3 : Char.toNat ',' = 44 := rfl
    omega
  · intro hc
    have h2 := congrArg Char.toNat hc
    rw [ht] at h2
    have h3 : Char.toNat '-' = 45 := rfl
    omega

theorem digitsVal_append_single (l : List Char) (c : Char) :
    digitsVal (l ++ [c]) = digitsVal l * 10 + digitVal c := by
  unfold digitsVal
  rw [List.foldl_append]
  rfl

theorem natToDigitsGo_spec :
    ∀ (f n : Nat) (acc : List Char), n < 10 ^ (f + 1) →
      ∃ ds, natToDigitsGo (f + 1) n acc = ds ++ acc ∧ ds ≠ [] ∧
        (∀ c ∈ ds, isAsciiDigit c = true ∧ c ≠ ',' ∧ c ≠ '-') ∧ digitsVal ds = n := by
  intro f
  induction f with
  | zero =>
    intro n acc hn
    have h10 : n < 10 := by simpa using hn
    refine ⟨[Char.ofNat (n + 48)], ?_, by simp, ?_, ?_⟩
    · rw [natToDigitsGo, if_pos h10]; simp
    · intro c hc
      simp only [List.mem_singleton] at hc
      subst hc
      obtain ⟨h1, _, h3, h4⟩ := digitChar_digit h10
      exact ⟨h1, h3, h4⟩
    · have := (digitChar_digit h10).2.1
      unfold digitsVal
      simpa using this
  | succ f ih =>
    intro n acc hn
    by_cases h10 : n < 10
    · refine ⟨[Char.ofNat (n + 48)], ?_, by simp, ?_, ?_⟩
      · rw [natToDigitsGo, if_pos h10]; simp
      · intro c hc
        simp only [List.mem_singleton] at hc
        subst hc
        obtain ⟨h1, _, h3, h4⟩ := digitChar_digit h10
        exact ⟨h1, h3, h4⟩
      · have := (digitChar_digit h10).2.1
        unfold digitsVal
        simpa using this
    · have hdiv : n / 10 < 10 ^ (f + 1) := by
        rw [Nat.div_lt_iff_lt_mul (by norm_num)]
        calc n < 10 ^ (f + 1 + 1) := hn
          _ = 10 ^ (f + 1) * 10 := by ring
      obtain ⟨ds, heq, hne, hdig, hval⟩ :=
        ih (n / 10) (Char.ofNat (n % 10 + 48) :: acc) hdiv
      have hmod : n % 10 < 10 := Nat.mod_lt _ (by norm_num)
      refine ⟨ds ++ [Char.ofNat (n % 10 + 48)], ?_, by simp, ?_, ?_⟩
      · rw [natToDigitsGo, if_neg h10, heq]
        simp
      · intro c hc
        rcases List.mem_append.mp hc with h1 | h2
        · exact hdig c h1
        · simp only [List.mem_singleton] at h2
          subst h2
          obtain ⟨g1, _, g3, g4⟩ := digitChar_digit hmod
          exact ⟨g1, g3, g4⟩
      · rw [digitsVal_append_single, hval, (digitChar_digit hmod).2.1]
        omega

theorem natToDigits_spec (n : Nat) :
    natToDigits n ≠ [] ∧ (∀ c ∈ natToDigits n, isAsciiDigit c = true ∧ c ≠ ',' ∧ c ≠ '-') ∧
      digitsVal (natToDigits n) = n := by
  have hpow : n < 10 ^ (n + 1) := by
    calc n < n + 1 := by omega
      _ ≤ 10 ^ (n + 1) := by
        calc n + 1 ≤ 2 ^ (n + 1) := Nat.le_of_lt (Nat.lt_two_pow (n + 1))
          _ ≤ 10 ^ (n + 1) := Nat.pow_le_pow_left (by norm_num) _
  obtain ⟨ds, heq, hne, hdig, hval⟩ := natToDigitsGo_spec n n [] hpow
  unfold natToDigits
  rw [heq]
  simpa using ⟨hne, hdig, hval⟩

/-! groupCommas structure -/

theorem revGroup_short {l : List Char} (h : l.length ≤ 3) : revGroup l = l := by
  rw [revGroup.eq_def]
  split
  · rename_i a b c d t
    simp at h
  · rfl

theorem groupCommas_short {ds : List Char} (h : ds.length ≤ 3) : groupCommas ds = ds := by
  unfold groupCommas
  rw [revGroup_short (by simpa using h)]
  simp

theorem groupCommas_step (I : List Char) (z3 z2 z1 : Char) (hI : I ≠ []) :
    groupCommas (I ++ [z3, z2, z1]) = groupCommas I ++ ',' :: [z3, z2, z1] := by
  unfold groupCommas
  obtain ⟨d, t, hdt⟩ : ∃ d t, I.reverse = d :: t := by
    cases hrev : I.reverse with
    | nil => exact absurd (by simpa using hrev) hI
    | cons d t => exact ⟨d, t, rfl⟩
  rw [List.reverse_append]
  have h1 : [z3, z2, z1].reverse = [z1, z2, z3] := rfl
  rw [h1, hdt]
  show (revGroup (z1 :: z2 :: z3 :: d :: t)).reverse = (revGroup (d :: t)).reverse ++ [',', z3, z2, z1]
  rw [revGroup]
  simp

theorem groupCommas_shape :
    ∀ (n : Nat) (ds : List Char), ds.length ≤ n → ds ≠ [] →
      ∃ (fg : List Char) (gs : List (List Char)),
        groupCommas ds = fg ++ (gs.map (fun g => ',' :: g)).flatten ∧
        fg ≠ [] ∧ fg.length ≤ 3 ∧
        (∀ g ∈ gs, g.length = 3) ∧
        fg ++ gs.flatten = ds := by
  intro n
  induction n using Nat.strong_induction_on with
  | _ n ih =>
    intro ds hlen hne
    by_cases h3 : ds.length ≤ 3
    · exact ⟨ds, [], by simp [groupCommas_short h3], hne, h3, by simp, by simp⟩
    · push_neg at h3
      -- split off the last three characters
      have hsplit : ds = ds.take (ds.length - 3) ++ ds.drop (ds.length - 3) :=
        (List.take_append_drop _ _).symm
      have hdlen : (ds.drop (ds.length - 3)).length = 3 := by
        simp only [List.length_drop]
        omega
      obtain ⟨z3, z2, z1, hz⟩ : ∃ z3 z2 z1, ds.drop (ds.length - 3) = [z3, z2, z1] := by
        match hd : ds.drop (ds.length - 3), hdlen with
        | [z3, z2, z1], _ => exact ⟨z3, z2, z1, rfl⟩
      have hIlen : (ds.take (ds.length - 3)).length = ds.length - 3 := by
        simp only [List.length_take]
        omega
      have hIne : ds.take (ds.length - 3) ≠ [] := by
        intro hh
        rw [hh] at hIlen
        simp at hIlen
        omega
      obtain ⟨fg, gs, hgc, hfgne, hfg3, hgs3, hflat⟩ :=
        ih (n - 3) (by omega) (ds.take (ds.length - 3)) (by omega) hIne
      refine ⟨fg, gs ++ [[z3, z2, z1]], ?_, hfgne, hfg3, ?_, ?_⟩
      · conv_lhs => rw [hsplit, hz]
        rw [groupCommas_step _ _ _ _ hIne, hgc]
        simp
      · intro g hg
        rcases List.mem_append.mp hg with h1 | h2
        · exact hgs3 g h1
        · simp only [List.mem_singleton] at h2
          subst h2
          rfl
      · conv_rhs => rw [hsplit, hz]
        rw [← hflat]
        simp

/-! The number regex consumes a formatted money string exactly -/

theorem takeUpTo3_exact {fg X : List Char} (h3 : fg.length ≤ 3)
    (hdig : ∀ c ∈ fg, isAsciiDigit c = true)
    (hX : ∀ d t, X = d :: t → isAsciiDigit d = false) :
    takeUpTo3Digits (fg ++ X) = (fg, X) := by
  unfold takeUpTo3Digits
  have hXtw : X.takeWhile isAsciiDigit = [] := by
    cases X with
    | nil => rfl
    | cons d t =>
      rw [List.takeWhile_cons_of_neg]
      simp [hX d t rfl]
  have htw : (fg ++ X).takeWhile isAsciiDigit = fg := by
    rw [(takeWhile_append_all X hdig).1, hXtw, List.append_nil]
  rw [htw, List.take_of_length_le h3]
  dsimp only
  rw [List.drop_left]

theorem takeGroups_flat :
    ∀ (gs : List (List Char)) (r : List Char),
      (∀ g ∈ gs, g.length = 3 ∧ ∀ c ∈ g, isAsciiDigit c = true) →
      (∀ d t, r = d :: t → d ≠ ',') →
      takeGroups ((gs.map (fun g => ',' :: g)).flatten ++ r) =
        ((gs.map (fun g => ',' :: g)).flatten, r) := by
  intro gs
  induction gs with
  | nil =>
    intro r hgs hr
    simp only [List.map_nil, List.flatten_nil, List.nil_append]
    cases r with
    | nil => rfl
    | cons d t =>
      rw [takeGroups.eq_def]
      split
      · rename_i a b c t' heq
        injection heq with h1 _
        exact ((hr d t rfl) h1).elim
      · rfl
  | cons g gs ih =>
    intro r hgs hr
    obtain ⟨hg3, hgdig⟩ := hgs g (by simp)
    obtain ⟨a, b, c, rfl⟩ : ∃ a b c, g = [a, b, c] := by
      match hd : g, hg3 with
      | [a, b, c], _ => exact ⟨a, b, c, rfl⟩
    have ha : isAsciiDigit a = true := hgdig a (by simp)
    have hb : isAsciiDigit b = true := hgdig b (by simp)
    have hc : isAsciiDigit c = true := hgdig c (by simp)
    simp only [List.map_cons, List.flatten_cons, List.cons_append, List.append_assoc]
    rw [takeGroups, if_pos (by simp [ha, hb, hc])]
    simp only [List.nil_append]
    rw [ih r (fun g hg => hgs g (by simp [hg])) hr]

theorem takeDec_exact {d1 d2 : Char} (h1 : isAsciiDigit d1 = true)
    (h2 : isAsciiDigit d2 = true) (r : List Char) :
    takeDec ('.' :: d1 :: d2 :: r) = (['.', d1, d2], r) := by
  rw [takeDec, if_pos (by simp [h1, h2])]

theorem numTry_eq_numCore_of_ne {c : Char} (h : c ≠ '-') (rest : List Char) :
    numTry (c :: rest) = numCore (c :: rest) := by
  rw [numTry.eq_def]
  split
  · rename_i t heq
    injection heq with h1 _
    exact absurd h1 h
  · rfl

theorem numCore_fmt {fg : List Char} {gs : List (List Char)} {d1 d2 : Char}
    (hfgne : fg ≠ []) (h3 : fg.length ≤ 3)
    (hfgdig : ∀ c ∈ fg, isAsciiDigit c = true)
    (hgs : ∀ g ∈ gs, g.length = 3 ∧ ∀ c ∈ g, isAsciiDigit c = true)
    (h1 : isAsciiDigit d1 = true) (h2 : isAsciiDigit d2 = true) (r : List Char) :
    numCore ((fg ++ (gs.map (fun g => ',' :: g)).flatten ++ ['.', d1, d2]) ++ r) =
      some (fg ++ (gs.map (fun g => ',' :: g)).flatten ++ ['.', d1, d2], r) := by
  obtain ⟨f0, fg', rfl⟩ : ∃ f0 fg', fg = f0 :: fg' := by
    cases fg with
    | nil => exact absurd rfl hfgne
    | cons a b => exact ⟨a, b, rfl⟩
  have hf0 : isAsciiDigit f0 = true := hfgdig f0 (by simp)
  have hassoc : ((f0 :: fg') ++ (gs.map (fun g => ',' :: g)).flatten ++ ['.', d1, d2]) ++ r =
      (f0 :: fg') ++ ((gs.map (fun g => ',' :: g)).flatten ++ ('.' :: d1 :: d2 :: r)) := by
    simp [List.append_assoc]
  rw [hassoc]
  have hstep1 : takeUpTo3Digits ((f0 :: fg') ++
      ((gs.map (fun g => ',' :: g)).flatten ++ ('.' :: d1 :: d2 :: r))) =
      (f0 :: fg', (gs.map (fun g => ',' :: g)).flatten ++ ('.' :: d1 :: d2 :: r)) := by
    apply takeUpTo3_exact h3 hfgdig
    intro d t hdt
    cases hgs2 : gs with
    | nil =>
      rw [hgs2] at hdt
      simp only [List.map_nil, List.flatten_nil, List.nil_append] at hdt
      injection hdt with hd1 _
      rw [← hd1]
      decide
    | cons g gs' =>
      rw [hgs2] at hdt
      obtain ⟨hg3, _⟩ := hgs g (by rw [hgs2]; simp)
      obtain ⟨a, b, c, rfl⟩ : ∃ a b c, g = [a, b, c] := by
        match hd : g, hg3 with
        | [a, b, c], _ => exact ⟨a, b, c, rfl⟩
      simp only [List.map_cons, List.flatten_cons, List.cons_append] at hdt
      injection hdt with hd1 _
      rw [← hd1]
      decide
  have hstep2 : takeGroups ((gs.map (fun g => ',' :: g)).flatten ++ ('.' :: d1 :: d2 :: r)) =
      ((gs.map (fun g => ',' :: g)).flatten, '.' :: d1 :: d2 :: r) := by
    apply takeGroups_flat gs _ hgs
    intro d t hdt
    injection hdt with hd1 _
    rw [← hd1]
    decide
  have hstep3 := takeDec_exact h1 h2 r
  simp only [List.cons_append] at hstep1 ⊢
  rw [numCore.eq_def]
  dsimp only
  rw [if_pos hf0, hstep1]
  dsimp only
  rw [hstep2]
  dsimp only
  rw [hstep3]
  dsimp only
  simp [List.append_assoc]

/-! Character-class facts -/

theorem alpha_not_digit {c : Char} (h : isAsciiAlpha c = true) : isAsciiDigit c = false := by
  rw [Bool.eq_false_iff]
  intro hd
  unfold isAsciiAlpha at h
  unfold isAsciiDigit at hd
  simp only [Bool.or_eq_true, Bool.and_eq_true, decide_eq_true_eq, Char.le_def] at h hd
  have n3 : (48 : Nat) ≤ c.toNat := hd.1
  have n4 : c.toNat ≤ 57 := hd.2
  rcases h with ⟨h1, h2⟩ | ⟨h1, h2⟩
  · have n1 : (65 : Nat) ≤ c.toNat := h1
    omega
  · have n1 : (97 : Nat) ≤ c.toNat := h1
    omega

theorem alpha_not_ws {c : Char} (h : isAsciiAlpha c = true) : pyIsWS c = false := by
  rw [Bool.eq_false_iff]
  intro hw
  unfold pyIsWS at hw
  simp only [Bool.or_eq_true, decide_eq_true_eq] at hw
  rcases hw with ((((rfl | rfl) | rfl) | rfl) | rfl) | rfl <;> exact absurd h (by decide)

theorem digit_not_ws {c : Char} (h : isAsciiDigit c = true) : pyIsWS c = false := by
  rw [Bool.eq_false_iff]
  intro hw
  unfold pyIsWS at hw
  simp only [Bool.or_eq_true, decide_eq_true_eq] at hw
  rcases hw with ((((rfl | rfl) | rfl) | rfl) | rfl) | rfl <;> exact absurd h (by decide)

theorem digit_ne_of_not {c d : Char} (h : isAsciiDigit c = true)
    (hd : isAsciiDigit d = false) : c ≠ d := by
  intro he
  rw [he] at h
  rw [h] at hd
  exact absurd hd (by decide)

/-! `toCentsRounded` is exact on two-decimal amounts -/

theorem toCentsRounded_cents (m : Int) : (Dec.cents m).toCentsRounded = m := by
  have e2 : Dec.cents m = if m % 10 = 0 then Dec.norm (m / 10) 1 else ⟨m, 2⟩ := rfl
  have e1 : ∀ k : Int, Dec.norm k 1 = if k % 10 = 0 then Dec.norm (k / 10) 0 else ⟨k, 1⟩ :=
    fun _ => rfl
  have e0 : ∀ k : Int, Dec.norm k 0 = ⟨k, 0⟩ := fun _ => rfl
  rw [e2]
  by_cases h1 : m % 10 = 0
  · rw [if_pos h1, e1]
    by_cases h2 : m / 10 % 10 = 0
    · rw [if_pos h2, e0]
      unfold Dec.toCentsRounded
      simp only
      rw [if_pos (by norm_num)]
      norm_num
      omega
    · rw [if_neg h2]
      unfold Dec.toCentsRounded
      simp only
      rw [if_pos (by norm_num)]
      norm_num
      omega
  · rw [if_neg h1]
    unfold Dec.toCentsRounded
    simp only
    rw [if_pos (by norm_num)]
    norm_num

/-! The rendered money string: shape and exact reparse -/

theorem fmtMoney_cents_shape (m : Int) :
    ∃ (fg : List Char) (gs : List (List Char)), (fmtMoney (Dec.cents m)).toList =
        (if m < 0 then ['-'] else []) ++
          (fg ++ (gs.map (fun g => ',' :: g)).flatten ++
            ['.', Char.ofNat (m.natAbs % 100 / 10 + 48),
                  Char.ofNat (m.natAbs % 100 % 10 + 48)]) ∧
      fg ≠ [] ∧ fg.length ≤ 3 ∧
      (∀ c ∈ fg, isAsciiDigit c = true) ∧
      (∀ g ∈ gs, g.length = 3 ∧ ∀ c ∈ g, isAsciiDigit c = true) ∧
      fg ++ gs.flatten = natToDigits (m.natAbs / 100) := by
  obtain ⟨hne, hdig, hval⟩ := natToDigits_spec (m.natAbs / 100)
  obtain ⟨fg, gs, hgc, hfgne, hfg3, hgs3, hflat⟩ :=
    groupCommas_shape (natToDigits (m.natAbs / 100)).length _ (le_refl _) hne
  have hmemf : ∀ c ∈ fg, isAsciiDigit c = true := by
    intro c hc
    exact (hdig c (by rw [← hflat]; exact List.mem_append.mpr (Or.inl hc))).1
  have hmemg : ∀ g ∈ gs, g.length = 3 ∧ ∀ c ∈ g, isAsciiDigit c = true := by
    intro g hg
    refine ⟨hgs3 g hg, fun c hc => ?_⟩
    exact (hdig c (by
      rw [← hflat]
      exact List.mem_append.mpr (Or.inr (List.mem_flatten.mpr ⟨g, hg, hc⟩)))).1
  refine ⟨fg, gs, ?_, hfgne, hfg3, hmemf, hmemg, hflat⟩
  show (if (Dec.cents m).toCentsRounded < 0 then ['-'] else []) ++
      groupCommas (natToDigits ((Dec.cents m).toCentsRounded.natAbs / 100)) ++
      '.' :: [Char.ofNat ((Dec.cents m).toCentsRounded.natAbs % 100 / 10 + 48),
              Char.ofNat ((Dec.cents m).toCentsRounded.natAbs % 100 % 10 + 48)] = _
  rw [toCentsRounded_cents, hgc]
  simp [List.append_assoc]

theorem numTry_money (m : Int) (r : List Char) :
    numTry ((fmtMoney (Dec.cents m)).toList ++ r) =
      some ((fmtMoney (Dec.cents m)).toList, r) := by
  obtain ⟨fg, gs, heq, hfgne, hfg3, hfgdig, hgs, hflat⟩ := fmtMoney_cents_shape m
  rw [heq]
  obtain ⟨e1, e2, he12⟩ : ∃ e1 e2,
      isAsciiDigit e1 = true ∧ isAsciiDigit e2 = true ∧
      (['.', Char.ofNat (m.natAbs % 100 / 10 + 48),
             Char.ofNat (m.natAbs % 100 % 10 + 48)] : List Char) = ['.', e1, e2] := by
    refine ⟨_, _, ?_, ?_, rfl⟩
    · exact (digitChar_digit (by omega)).1
    · exact (digitChar_digit (by omega)).1
  obtain ⟨hd1, hd2, hexp⟩ := he12
  rw [hexp]
  by_cases hm : m < 0
  · rw [if_pos hm]
    show numTry ('-' :: ((fg ++ (gs.map (fun g => ',' :: g)).flatten ++ ['.', e1, e2]) ++ r))
      = some ('-' :: (fg ++ (gs.map (fun g => ',' :: g)).flatten ++ ['.', e1, e2]), r)
    rw [numTry]
    rw [numCore_fmt hfgne hfg3 hfgdig hgs hd1 hd2 r]
  · rw [if_neg hm]
    simp only [List.nil_append]
    obtain ⟨f0, fg', rfl⟩ : ∃ f0 fg', fg = f0 :: fg' := by
      cases fg with
      | nil => exact absurd rfl hfgne
      | cons a b => exact ⟨a, b, rfl⟩
    have hf0 : isAsciiDigit f0 = true := hfgdig f0 (by simp)
    have hcons : ((f0 :: fg') ++ (gs.map (fun g => ',' :: g)).flatten ++ ['.', e1, e2]) ++ r =
        f0 :: ((fg' ++ (gs.map (fun g => ',' :: g)).flatten ++ ['.', e1, e2]) ++ r) := by
      simp [List.append_assoc]
    rw [hcons, numTry_eq_numCore_of_ne (digit_ne_of_not hf0 (by decide)) _, ← hcons]
    exact numCore_fmt hfgne hfg3 hfgdig hgs hd1 hd2 r

theorem pyFloat_val (sgn ds : List Char) (a b : Char)
    (hs : sgn = [] ∨ sgn = ['-']) (hd : ds ≠ [])
    (hds : ∀ c ∈ ds, isAsciiDigit c = true)
    (ha : isAsciiDigit a = true) (hb : isAsciiDigit b = true) :
    pyFloat (String.mk (sgn ++ ds ++ ['.', a, b])) =
      some (Dec.ofParts (sgn ≠ []) ds [a, b]) := by
  obtain ⟨d0, ds', rfl⟩ : ∃ d0 ds', ds = d0 :: ds' := by
    cases ds with
    | nil => exact absurd rfl hd
    | cons x y => exact ⟨x, y, rfl⟩
  have hd0 : isAsciiDigit d0 = true := hds d0 (by simp)
  have hd0ne : d0 ≠ '-' := by
    intro hdd
    rw [hdd] at hd0
    simp [isAsciiDigit] at hd0
  have htoList : (String.mk (sgn ++ (d0 :: ds') ++ ['.', a, b])).toList =
      sgn ++ (d0 :: ds') ++ ['.', a, b] := rfl
  have hsplit := takeWhile_append_all (p := isAsciiDigit) ['.', a, b] hds
  unfold pyFloat
  rw [htoList]
  cases hs with
  | inl h =>
    subst h
    simp only [List.nil_append, List.cons_append] at hsplit ⊢
    rw [splitSign_of_ne hd0ne]
    dsimp only
    rw [hsplit.2, hsplit.1]
    simp only [List.dropWhile, List.takeWhile]
    rw [show isAsciiDigit '.' = false from rfl]
    simp [ha, hb, Dec.ofParts]
  | inr h =>
    subst h
    simp only [List.cons_append, List.nil_append] at hsplit ⊢
    rw [show splitSign ('-' :: d0 :: (ds' ++ ['.', a, b])) =
      (true, d0 :: (ds' ++ ['.', a, b])) from rfl]
    dsimp only
    rw [hsplit.2, hsplit.1]
    simp only [List.dropWhile, List.takeWhile]
    rw [show isAsciiDigit '.' = false from rfl]
    simp [ha, hb, Dec.ofParts]
theorem pyFloat_money (m : Int) :
    pyFloat (String.mk ((if m < 0 then ['-'] else []) ++
      (natToDigits (m.natAbs / 100) ++
        ['.', Char.ofNat (m.natAbs % 100 / 10 + 48),
              Char.ofNat (m.natAbs % 100 % 10 + 48)]))) = some (Dec.cents m) := by
  obtain ⟨hne, hdig, hval⟩ := natToDigits_spec (m.natAbs / 100)
  have hd1 := digitChar_digit (k := m.natAbs % 100 / 10) (by omega)
  have hd2 := digitChar_digit (k := m.natAbs % 100 % 10) (by omega)
  have hdsdig : ∀ c ∈ natToDigits (m.natAbs / 100), isAsciiDigit c = true :=
    fun c hc => (hdig c hc).1
  have hvals : digitsVal [Char.ofNat (m.natAbs % 100 / 10 + 48),
      Char.ofNat (m.natAbs % 100 % 10 + 48)] = m.natAbs % 100 := by
    unfold digitsVal
    simp only [List.foldl_cons, List.foldl_nil]
    rw [Nat.zero_mul, Nat.zero_add, hd1.2.1, hd2.2.1]
    omega
  have hofp : ∀ ng : Bool, (ng = true ↔ m < 0) →
      Dec.ofParts ng (natToDigits (m.natAbs / 100))
        [Char.ofNat (m.natAbs % 100 / 10 + 48), Char.ofNat (m.natAbs % 100 % 10 + 48)] =
      Dec.cents m := by
    intro ng hng
    unfold Dec.ofParts Dec.cents
    simp only [List.length_cons, List.length_nil, hvals, hval]
    have habs : ((m.natAbs / 100 * 10 ^ (0 + 1 + 1) + m.natAbs % 100 : Nat) : Int) =
        (m.natAbs : Int) := by
      push_cast
      omega
    cases ng with
    | true =>
      rw [if_pos rfl, habs]
      have : -((m.natAbs : Int)) = m := by
        have := hng.mp rfl
        omega
      rw [this]
    | false =>
      rw [if_neg (by simp), habs]
      have hnot : ¬m < 0 := fun hc => Bool.false_ne_true (hng.mpr hc)
      have : ((m.natAbs : Int)) = m := by omega
      rw [this]
  by_cases hm : m < 0
  · rw [if_pos hm]
    have := pyFloat_val ['-'] (natToDigits (m.natAbs / 100))
      (Char.ofNat (m.natAbs % 100 / 10 + 48)) (Char.ofNat (m.natAbs % 100 % 10 + 48))
      (Or.inr rfl) hne hdsdig hd1.1 hd2.1
    rw [List.append_assoc] at this
    rw [this]
    rw [hofp _ (by simp [hm])]
  · rw [if_neg hm]
    simp only [List.nil_append]
    have := pyFloat_val [] (natToDigits (m.natAbs / 100))
      (Char.ofNat (m.natAbs % 100 / 10 + 48)) (Char.ofNat (m.natAbs % 100 % 10 + 48))
      (Or.inl rfl) hne hdsdig hd1.1 hd2.1
    rw [List.append_assoc, List.nil_append] at this
    rw [this]
    rw [hofp _ (by simp [hm])]

theorem filter_comma_flat (gs : List (List Char))
    (h : ∀ g ∈ gs, ∀ c ∈ g, isAsciiDigit c = true) :
    ((gs.map (fun g => ',' :: g)).flatten).filter (fun c => c ≠ ',') = gs.flatten := by
  induction gs with
  | nil => rfl
  | cons g gs ih =>
    simp only [List.map_cons, List.flatten_cons, List.filter_append, List.filter_cons]
    rw [if_neg (by simp)]
    rw [ih (fun g' hg' => h g' (by simp [hg']))]
    rw [List.filter_eq_self.mpr (fun c hc => by
      simpa using digit_ne_of_not (h g (by simp) c hc) (by decide))]

theorem replace_comma_money (m : Int) :
    pyReplace (fmtMoney (Dec.cents m)) "," "" =
      String.mk ((if m < 0 then ['-'] else []) ++
        (natToDigits (m.natAbs / 100) ++
          ['.', Char.ofNat (m.natAbs % 100 / 10 + 48),
                Char.ofNat (m.natAbs % 100 % 10 + 48)])) := by
  obtain ⟨fg, gs, heq, hfgne, hfg3, hfgdig, hgs, hflat⟩ := fmtMoney_cents_shape m
  rw [pyReplace_comma, heq]
  have hd1 := digitChar_digit (k := m.natAbs % 100 / 10) (by omega)
  have hd2 := digitChar_digit (k := m.natAbs % 100 % 10) (by omega)
  have h1 : (if m < 0 then ['-'] else []).filter (fun c => c ≠ ',') =
      (if m < 0 then ['-'] else []) := by
    by_cases hm : m < 0 <;> simp [hm]
  have h2 : fg.filter (fun c => c ≠ ',') = fg :=
    List.filter_eq_self.mpr (fun c hc => by
      simpa using digit_ne_of_not (hfgdig c hc) (by decide))
  have h3 := filter_comma_flat gs (fun g hg => (hgs g hg).2)
  have h4 : (['.', Char.ofNat (m.natAbs % 100 / 10 + 48),
      Char.ofNat (m.natAbs % 100 % 10 + 48)] : List Char).filter (fun c => c ≠ ',') =
      ['.', Char.ofNat (m.natAbs % 100 / 10 + 48),
            Char.ofNat (m.natAbs % 100 % 10 + 48)] := by
    simp only [List.filter_cons]
    rw [if_pos (by simp), if_pos (by simpa using hd1.2.2.1), if_pos (by simpa using hd2.2.2.1)]
    rfl
  simp only [List.filter_append, h1, h2, h3, h4]
  rw [hflat]

theorem parse_value_money (m : Int) :
    pyFloat (pyReplace (fmtMoney (Dec.cents m)) "," "") = some (Dec.cents m) := by
  rw [replace_comma_money, pyFloat_money]

/-! `findNums` on a rendered detail line -/

theorem isPre_length_le {p l : List Char} (h : isPre p l = true) : p.length ≤ l.length := by
  obtain ⟨t, rfl⟩ := (isPre_iff p l).mp h
  simp

theorem isPre_same_append (X p l : List Char) : isPre (X ++ p) (X ++ l) = isPre p l := by
  induction X with
  | nil => rfl
  | cons x X ih => simp [isPre, ih]

theorem findNumsAux_nil (f : Nat) : findNumsAux f [] = [] := by
  cases f <;> rfl

theorem findNumsAux_fuel : ∀ (n : Nat) (l : List Char), l.length ≤ n →
    ∀ f1 f2, l.length ≤ f1 → l.length ≤ f2 → findNumsAux f1 l = findNumsAux f2 l := by
  intro n
  induction n with
  | zero =>
    intro l hl _ _ _ _
    rw [Nat.le_zero, List.length_eq_zero] at hl
    subst hl
    rw [findNumsAux_nil, findNumsAux_nil]
  | succ n ih =>
    intro l hl f1 f2 h1 h2
    cases l with
    | nil => rw [findNumsAux_nil, findNumsAux_nil]
    | cons c t =>
      simp only [List.length_cons] at hl h1 h2
      obtain ⟨k1, rfl⟩ : ∃ k, f1 = k + 1 := ⟨f1 - 1, by omega⟩
      obtain ⟨k2, rfl⟩ : ∃ k, f2 = k + 1 := ⟨f2 - 1, by omega⟩
      rw [findNumsAux, findNumsAux]
      cases hnt : numTry (c :: t) with
      | none => exact ih t (by omega) k1 k2 (by omega) (by omega)
      | some pr =>
        obtain ⟨tok, rest⟩ := pr
        obtain ⟨hcat, hne⟩ := numTry_decomp hnt
        have hlen : rest.length ≤ t.length := by
          have hl2 := congrArg List.length hcat
          simp only [List.length_append, List.length_cons] at hl2
          cases tok with
          | nil => exact absurd rfl hne
          | cons a b =>
            simp only [List.length_cons] at hl2
            omega
        exact congrArg _ (ih rest (by omega) k1 k2 (by omega) (by omega))

theorem numCore_none_head {c : Char} (h : isAsciiDigit c = false) (t : List Char) :
    numCore (c :: t) = none := by
  rw [numCore]
  rw [if_neg (by simp [h])]

theorem findNumsAux_skip : ∀ (skip : List Char), (∀ c ∈ skip, isAsciiDigit c = false) →
    skip.getLast? ≠ some '-' →
    ∀ (rest : List Char) (f : Nat), skip.length + rest.length ≤ f →
      findNumsAux f (skip ++ rest) = findNumsAux (f - skip.length) rest := by
  intro skip
  induction skip with
  | nil =>
    intro _ _ rest f _
    simp
  | cons c sk ih =>
    intro hnd hlast rest f hf
    simp only [List.length_cons] at hf
    obtain ⟨k, rfl⟩ : ∃ k, f = k + 1 := ⟨f - 1, by omega⟩
    have hc : isAsciiDigit c = false := hnd c (by simp)
    have hnone : numTry (c :: (sk ++ rest)) = none := by
      by_cases hcm : c = '-'
      · subst hcm
        rw [numTry]
        cases hsk : sk with
        | nil =>
          simp only [hsk] at hlast
          simp at hlast
        | cons d t =>
          have hd : isAsciiDigit d = false := hnd d (by simp [hsk])
          simp only [List.cons_append]
          rw [numCore_none_head hd]
      · rw [numTry_eq_numCore_of_ne hcm, numCore_none_head hc]
    rw [show (c :: sk) ++ rest = c :: (sk ++ rest) from rfl]
    rw [findNumsAux, hnone]
    have hsklast : sk.getLast? ≠ some '-' := by
      cases hsk : sk with
      | nil => simp
      | cons d t =>
        rw [← hsk]
        intro hcontra
        apply hlast
        rw [hsk, List.getLast?_cons_cons, ← hsk]
        exact hcontra
    rw [ih (fun x hx => hnd x (by simp [hx])) hsklast rest k (by omega)]
    simp only [List.length_cons]
    rw [show k + 1 - (sk.length + 1) = k - sk.length from by omega]

theorem findNumsAux_cons_match {c : Char} {t tok rest : List Char} (f : Nat)
    (h : numTry (c :: t) = some (tok, rest)) :
    findNumsAux (f + 1) (c :: t) = String.mk tok :: findNumsAux f rest := by
  rw [findNumsAux, h]

theorem fmtMoney_toList_facts (m : Int) :
    (fmtMoney (Dec.cents m)).toList ≠ [] ∧
    (∃ e, ((fmtMoney (Dec.cents m)).toList).getLast? = some e ∧ isAsciiDigit e = true) := by
  obtain ⟨fg, gs, heq, hfgne, hfg3, hfgdig, hgs, hflat⟩ := fmtMoney_cents_shape m
  have hd2 := digitChar_digit (k := m.natAbs % 100 % 10) (by omega)
  have hconcat : (fmtMoney (Dec.cents m)).toList =
      ((if m < 0 then ['-'] else []) ++
        (fg ++ (gs.map (fun g => ',' :: g)).flatten ++
          ['.', Char.ofNat (m.natAbs % 100 / 10 + 48)])) ++
        [Char.ofNat (m.natAbs % 100 % 10 + 48)] := by
    rw [heq]
    simp [List.append_assoc]
  constructor
  · rw [hconcat]
    simp
  · refine ⟨Char.ofNat (m.natAbs % 100 % 10 + 48), ?_, hd2.1⟩
    rw [hconcat]
    exact List.getLast?_concat _

theorem findNums_two_tokens (sk1 sk2 A B : List Char)
    (hsk1nd : ∀ c ∈ sk1, isAsciiDigit c = false) (hsk1last : sk1.getLast? ≠ some '-')
    (hsk2nd : ∀ c ∈ sk2, isAsciiDigit c = false) (hsk2last : sk2.getLast? ≠ some '-')
    (hAmatch : ∀ r, numTry (A ++ r) = some (A, r))
    (hBmatch : ∀ r, numTry (B ++ r) = some (B, r))
    (hAne : A ≠ []) (hBne : B ≠ []) :
    findNumsAux (sk1 ++ (A ++ (sk2 ++ B))).length (sk1 ++ (A ++ (sk2 ++ B))) =
      [String.mk A, String.mk B] := by
  obtain ⟨a, A', rfl⟩ : ∃ a A', A = a :: A' := by
    cases A with
    | nil => exact absurd rfl hAne
    | cons x y => exact ⟨x, y, rfl⟩
  obtain ⟨b, B', rfl⟩ : ∃ b B', B = b :: B' := by
    cases B with
    | nil => exact absurd rfl hBne
    | cons x y => exact ⟨x, y, rfl⟩
  rw [findNumsAux_skip sk1 hsk1nd hsk1last _ _ (by simp)]
  have h1 : (sk1 ++ ((a :: A') ++ (sk2 ++ (b :: B')))).length - sk1.length =
      (A' ++ (sk2 ++ (b :: B'))).length + 1 := by
    simp only [List.length_append, List.length_cons]
    omega
  rw [h1, List.cons_append]
  rw [findNumsAux_cons_match _ (by rw [← List.cons_append]; exact hAmatch _)]
  rw [findNumsAux_fuel ((A' ++ (sk2 ++ (b :: B'))).length) (sk2 ++ (b :: B'))
    (by simp only [List.length_append, List.length_cons]; omega)
    ((A' ++ (sk2 ++ (b :: B'))).length) ((sk2 ++ (b :: B')).length)
    (by simp only [List.length_append, List.length_cons]; omega) (le_refl _)]
  rw [findNumsAux_skip sk2 hsk2nd hsk2last _ _ (by simp)]
  have h3 : (sk2 ++ (b :: B')).length - sk2.length = B'.length + 1 := by
    simp only [List.length_append, List.length_cons]
    omega
  rw [h3]
  rw [findNumsAux_cons_match _ (by have h := hBmatch []; rwa [List.append_nil] at h)]
  rw [findNumsAux_nil]

theorem findNums_line (cat : String) (m n : Int)
    (hnd : ∀ c ∈ cat.toList, isAsciiDigit c = false) :
    findNums (String.mk (('-' :: ' ' :: (cat.toList ++ [':', ' '])) ++
      ((fmtMoney (Dec.cents m)).toList ++
        ([';', ' '] ++ (fmtMoney (Dec.cents n)).toList)))) =
      [fmtMoney (Dec.cents m), fmtMoney (Dec.cents n)] := by
  have hA := fmtMoney_toList_facts m
  have hB := fmtMoney_toList_facts n
  have hsk1nd : ∀ c ∈ ('-' :: ' ' :: (cat.toList ++ [':', ' '])), isAsciiDigit c = false := by
    intro c hc
    simp only [List.mem_cons, List.mem_append, List.not_mem_nil, or_false] at hc
    rcases hc with rfl | rfl | hc | rfl | rfl
    · decide
    · decide
    · exact hnd c hc
    · decide
    · decide
  have hsk1last : ('-' :: ' ' :: (cat.toList ++ [':', ' '])).getLast? ≠ some '-' := by
    have he : ('-' :: ' ' :: (cat.toList ++ [':', ' '])) =
        ('-' :: ' ' :: (cat.toList ++ [':'])) ++ [' '] := by simp
    rw [he, List.getLast?_concat]
    decide
  have hsk2nd : ∀ c ∈ ([';', ' '] : List Char), isAsciiDigit c = false := by
    intro c hc
    simp only [List.mem_cons, List.mem_singleton, List.not_mem_nil, or_false] at hc
    rcases hc with rfl | rfl <;> decide
  have hsk2last : ([';', ' '] : List Char).getLast? ≠ some '-' := by
    rw [show ([';', ' '] : List Char) = [';'] ++ [' '] from rfl, List.getLast?_concat]
    decide
  show findNumsAux (('-' :: ' ' :: (cat.toList ++ [':', ' '])) ++
      ((fmtMoney (Dec.cents m)).toList ++
        ([';', ' '] ++ (fmtMoney (Dec.cents n)).toList))).length
    (('-' :: ' ' :: (cat.toList ++ [':', ' '])) ++
      ((fmtMoney (Dec.cents m)).toList ++
        ([';', ' '] ++ (fmtMoney (Dec.cents n)).toList))) = _
  rw [findNums_two_tokens _ _ _ _ hsk1nd hsk1last hsk2nd hsk2last
    (numTry_money m) (numTry_money n) hA.1 hB.1]
  rfl

/-! `rfind` on appended patterns -/

theorem find?_rev_range (p : Nat → Bool) : ∀ n k, k ≤ n → p k = true →
    (∀ j, k < j → j ≤ n → p j = false) →
    ((List.range (n + 1)).reverse).find? p = some k := by
  intro n
  induction n with
  | zero =>
    intro k hk hpk _
    interval_cases k
    rw [show List.range 1 = [0] from rfl]
    simp [List.find?, hpk]
  | succ n ih =>
    intro k hk hpk habove
    rw [List.range_succ, List.reverse_append]
    simp only [List.reverse_singleton, List.singleton_append]
    by_cases hkn : k = n + 1
    · subst hkn
      exact List.find?_cons_of_pos _ hpk
    · rw [List.find?_cons_of_neg _ (by simp [habove (n + 1) (by omega) (by omega)])]
      exact ih k (by omega) hpk (fun j h1 h2 => habove j h1 (by omega))

theorem matchAt_short {s pat : List Char} {j : Nat} (h : s.length - j < pat.length) :
    matchAt s pat j = false := by
  rw [Bool.eq_false_iff]
  intro hm
  have := isPre_length_le hm
  simp only [List.length_drop] at this
  omega

theorem rfindIdx_append_pat (pre pat : List Char) (hne : pat ≠ []) :
    rfindIdx (pre ++ pat) pat = some pre.length := by
  unfold rfindIdx
  apply find?_rev_range
  · simp
  · unfold matchAt
    rw [List.drop_left]
    exact (isPre_iff _ _).mpr ⟨[], by simp⟩
  · intro j hj hjle
    apply matchAt_short
    simp only [List.length_append]
    have : pat.length ≠ 0 := by
      intro h0
      exact hne (List.length_eq_zero.mp h0)
    omega

theorem rfindIdx_append_pat_one (pre pat : List Char) (c : Char) (hne : pat ≠ [])
    (hlast : pat.getLast? ≠ some c) :
    rfindIdx (pre ++ (pat ++ [c])) pat = some pre.length := by
  unfold rfindIdx
  apply find?_rev_range
  · simp only [List.length_append, List.length_cons, List.length_nil]
    omega
  · unfold matchAt
    rw [List.drop_left]
    exact (isPre_iff _ _).mpr ⟨[c], by simp⟩
  · intro j hj hjle
    by_cases hj1 : j = pre.length + 1
    · subst hj1
      unfold matchAt
      rw [Bool.eq_false_iff]
      intro hm
      obtain ⟨d, pat', rfl⟩ : ∃ d pat', pat = d :: pat' := by
        cases pat with
        | nil => exact absurd rfl hne
        | cons x y => exact ⟨x, y, rfl⟩
      have hdrop : (pre ++ ((d :: pat') ++ [c])).drop (pre.length + 1) = pat' ++ [c] := by
        rw [show pre.length + 1 = (pre ++ [d]).length by simp]
        rw [show pre ++ ((d :: pat') ++ [c]) = (pre ++ [d]) ++ (pat' ++ [c]) by simp]
        exact List.drop_left _ _
      rw [hdrop] at hm
      obtain ⟨t, ht⟩ := (isPre_iff _ _).mp hm
      have hlen := congrArg List.length ht
      simp only [List.length_append, List.length_cons, List.length_nil] at hlen
      have ht0 : t = [] := List.length_eq_zero.mp (by omega)
      subst ht0
      rw [List.append_nil] at ht
      apply hlast
      rw [show d :: pat' = pat' ++ [c] from ht.symm, List.getLast?_concat]
    · apply matchAt_short
      simp only [List.length_append, List.length_cons, List.length_nil]
      have : pat.length ≠ 0 := by
        intro h0
        exact hne (List.length_eq_zero.mp h0)
      omega

/-! `rstrip` lemmas -/

theorem rstripBy_concat_pos {p : Char → Bool} (X : List Char) {y : Char} (hy : p y = true) :
    rstripBy p (X ++ [y]) = rstripBy p X := by
  unfold rstripBy
  rw [List.reverse_append, List.reverse_singleton, List.singleton_append,
    List.dropWhile_cons_of_pos hy]

theorem rstripBy_no_strip {p : Char → Bool} {l : List Char}
    (h : ∀ c, l.getLast? = some c → p c = false) : rstripBy p l = l := by
  unfold rstripBy
  cases hr : l.reverse with
  | nil =>
    have : l = [] := by simpa using congrArg List.reverse hr
    subst this
    rfl
  | cons c t =>
    have hlast : l.getLast? = some c := by
      rw [← List.head?_reverse, hr]
      rfl
    rw [List.dropWhile_cons_of_neg (by simp [h c hlast]), ← hr, List.reverse_reverse]

theorem CatClean_parts {cat : String} (h : CatClean cat = true) :
    optAlpha cat.toList.head? = true ∧ optAlpha cat.toList.getLast? = true ∧
    (∀ c ∈ cat.toList, (isAsciiAlpha c || c = ' ' || c = '-') = true) ∧
    noAdjWS cat.toList = true := by
  unfold CatClean at h
  simp only [Bool.and_eq_true, List.all_eq_true] at h
  exact ⟨h.1.1.1, h.1.1.2, h.1.2, h.2⟩

theorem catchar_not_digit {c : Char} (h : (isAsciiAlpha c || c = ' ' || c = '-') = true) :
    isAsciiDigit c = false := by
  simp only [Bool.or_eq_true, decide_eq_true_eq] at h
  rcases h with (ha | rfl) | rfl
  · exact alpha_not_digit ha
  · decide
  · decide

theorem catchar_ws {c : Char} (h : (isAsciiAlpha c || c = ' ' || c = '-') = true) :
    pyIsWS c = true → c = ' ' := by
  intro hw
  simp only [Bool.or_eq_true, decide_eq_true_eq] at h
  rcases h with (ha | rfl) | rfl
  · rw [alpha_not_ws ha] at hw
    exact absurd hw (by decide)
  · rfl
  · exact absurd hw (by decide)

theorem alpha_toNat_bounds {c : Char} (h : isAsciiAlpha c = true) :
    (65 ≤ c.toNat ∧ c.toNat ≤ 90) ∨ (97 ≤ c.toNat ∧ c.toNat ≤ 122) := by
  unfold isAsciiAlpha at h
  simp only [Bool.or_eq_true, Bool.and_eq_true, decide_eq_true_eq, Char.le_def] at h
  exact h

theorem alpha_not_strip {c : Char} (h : isAsciiAlpha c = true) :
    ((":-–— " : String).toList).contains c = false := by
  have hb := alpha_toNat_bounds h
  rw [Bool.eq_false_iff]
  intro hc
  have hmem : c ∈ ((":-–— " : String).toList) := by
    simpa using hc
  have : c ∈ ([':', '-', '–', '—', ' '] : List Char) := hmem
  simp only [List.mem_cons, List.mem_singleton, List.not_mem_nil, or_false] at this
  rcases this with rfl | rfl | rfl | rfl | rfl <;> exact absurd hb (by decide)

/-! `collapseWS` is the identity on single-space-separated text -/

theorem collapseWS_id : ∀ l : List Char, (∀ c ∈ l, pyIsWS c = true → c = ' ') →
    noAdjWS l = true → collapseWS l = l := by
  intro l
  induction l with
  | nil => intro _ _; rfl
  | cons a t ih =>
    intro hsp hadj
    cases t with
    | nil =>
      rw [collapseWS]
      by_cases ha : pyIsWS a = true
      · rw [if_pos ha, hsp a (by simp) ha]
      · rw [if_neg ha]
    | cons b t2 =>
      have hadj2 : (!(pyIsWS a && pyIsWS b)) = true ∧ noAdjWS (b :: t2) = true := by
        rw [noAdjWS] at hadj
        simpa using hadj
      rw [collapseWS, if_neg (by simp only [Bool.not_eq_true'] at hadj2 ⊢; simp [hadj2.1])]
      rw [ih (fun c hc hw => hsp c (by simp [hc]) hw) hadj2.2]
      by_cases ha : pyIsWS a = true
      · rw [if_pos ha, hsp a (by simp) ha]
      · rw [if_neg ha]

theorem noAdjWS_append_single {l : List Char} {c : Char} (hl : noAdjWS l = true)
    (hc : pyIsWS c = false) : noAdjWS (l ++ [c]) = true := by
  induction l with
  | nil => rfl
  | cons a t ih =>
    cases t with
    | nil =>
      show noAdjWS [a, c] = true
      rw [noAdjWS]
      simp [hc, noAdjWS]
    | cons b t2 =>
      have hadj2 : (!(pyIsWS a && pyIsWS b)) = true ∧ noAdjWS (b :: t2) = true := by
        rw [noAdjWS] at hl
        simpa using hl
      simp only [List.cons_append]
      rw [noAdjWS]
      have hr := ih hadj2.2
      simp only [List.cons_append] at hr
      simp only [Bool.and_eq_true]
      exact ⟨hadj2.1, hr⟩

/-! `strip` of a rendered detail line -/

theorem pyStrip_render (cat : String) (m n : Int) :
    pyStrip (renderDetailLine cat (Dec.cents m) (Dec.cents n)) =
      String.mk (('-' :: ' ' :: (cat.toList ++ [':', ' '])) ++
        ((fmtMoney (Dec.cents m)).toList ++
          ([';', ' '] ++ (fmtMoney (Dec.cents n)).toList))) := by
  obtain ⟨hBne, e, hBlast, hBdig⟩ :
      (fmtMoney (Dec.cents n)).toList ≠ [] ∧ ∃ e,
        ((fmtMoney (Dec.cents n)).toList).getLast? = some e ∧ isAsciiDigit e = true := by
    obtain ⟨h1, h2⟩ := fmtMoney_toList_facts n
    exact ⟨h1, h2⟩
  have h0 : (renderDetailLine cat (Dec.cents m) (Dec.cents n)).toList =
      [' ', ' ', '-', ' '] ++ cat.toList ++ [':', ' '] ++ (fmtMoney (Dec.cents m)).toList ++
        [';', ' '] ++ (fmtMoney (Dec.cents n)).toList := rfl
  have h1 : (renderDetailLine cat (Dec.cents m) (Dec.cents n)).toList =
      ' ' :: ' ' :: '-' :: ' ' :: ((cat.toList ++ [':', ' '] ++
        (fmtMoney (Dec.cents m)).toList ++ [';', ' ']) ++
        (fmtMoney (Dec.cents n)).toList) := by
    rw [h0]
    simp [List.append_assoc]
  unfold pyStrip stripBy lstripBy
  rw [h1]
  rw [List.dropWhile_cons_of_pos (by decide), List.dropWhile_cons_of_pos (by decide),
    List.dropWhile_cons_of_neg (by decide)]
  have h2 : '-' :: ' ' :: ((cat.toList ++ [':', ' '] ++
      (fmtMoney (Dec.cents m)).toList ++ [';', ' ']) ++ (fmtMoney (Dec.cents n)).toList) =
      ('-' :: ' ' :: (cat.toList ++ [':', ' '] ++
        (fmtMoney (Dec.cents m)).toList ++ [';', ' '])) ++ (fmtMoney (Dec.cents n)).toList :=
    rfl
  rw [h2, rstripBy_no_strip (fun c hc => by
    rw [List.getLast?_append_of_ne_nil _ hBne, hBlast] at hc
    injection hc with hce
    rw [← hce]
    exact digit_not_ws hBdig)]
  congr 1
  simp [List.append_assoc]

theorem endsWith_render_false (cat : String) (m n : Int) :
    pyEndsWith (String.mk (('-' :: ' ' :: (cat.toList ++ [':', ' '])) ++
        ((fmtMoney (Dec.cents m)).toList ++
          ([';', ' '] ++ (fmtMoney (Dec.cents n)).toList))))
      (fmtMoney (Dec.cents m) ++ " " ++ fmtMoney (Dec.cents n)) = false := by
  obtain ⟨hAne, hAl⟩ := fmtMoney_toList_facts m
  obtain ⟨eA, hAlast, hAdig⟩ := hAl
  obtain ⟨RA, hrev⟩ : ∃ RA, ((fmtMoney (Dec.cents m)).toList).reverse = eA :: RA := by
    cases hx : ((fmtMoney (Dec.cents m)).toList).reverse with
    | nil =>
      rw [List.reverse_eq_nil_iff] at hx
      exact absurd hx hAne
    | cons c t =>
      have : ((fmtMoney (Dec.cents m)).toList).reverse.head? = some c := by rw [hx]; rfl
      rw [List.head?_reverse, hAlast] at this
      injection this with hce
      subst hce
      exact ⟨t, rfl⟩
  unfold pyEndsWith
  have h1 : ((fmtMoney (Dec.cents m) ++ " " ++ fmtMoney (Dec.cents n)).toList).reverse =
      (((fmtMoney (Dec.cents n)).toList).reverse ++ [' ']) ++
        ((fmtMoney (Dec.cents m)).toList).reverse := by
    show ((fmtMoney (Dec.cents m)).toList ++ " ".toList ++
      (fmtMoney (Dec.cents n)).toList).reverse = _
    simp [List.reverse_append]
  have h2 : ((String.mk (('-' :: ' ' :: (cat.toList ++ [':', ' '])) ++
      ((fmtMoney (Dec.cents m)).toList ++
        ([';', ' '] ++ (fmtMoney (Dec.cents n)).toList)))).toList).reverse =
      (((fmtMoney (Dec.cents n)).toList).reverse ++ [' ']) ++
        (';' :: (((fmtMoney (Dec.cents m)).toList).reverse ++
          ('-' :: ' ' :: (cat.toList ++ [':', ' '])).reverse)) := by
    show (('-' :: ' ' :: (cat.toList ++ [':', ' '])) ++
      ((fmtMoney (Dec.cents m)).toList ++
        ([';', ' '] ++ (fmtMoney (Dec.cents n)).toList))).reverse =
      (((fmtMoney (Dec.cents n)).toList).reverse ++ [' ']) ++
        (';' :: (((fmtMoney (Dec.cents m)).toList).reverse ++
          ('-' :: ' ' :: (cat.toList ++ [':', ' '])).reverse))
    simp [List.reverse_append]
  rw [h1, h2, isPre_same_append, hrev]
  rw [isPre]
  simp only [Bool.and_eq_false_iff]
  left
  simp only [decide_eq_false_iff_not]
  exact digit_ne_of_not hAdig (by decide)

theorem pyRsplit1Before_mk (P B' : List Char) (sep : String)
    (hsep : sep.toList = B') (hne : B' ≠ []) :
    pyRsplit1Before (String.mk (P ++ B')) sep = String.mk P := by
  unfold pyRsplit1Before
  rw [show (String.mk (P ++ B')).toList = P ++ B' from rfl, hsep,
    rfindIdx_append_pat P B' hne]
  dsimp only
  congr 1
  exact List.take_left _ _

theorem pyRsplit1Before_mk_one (P B' : List Char) (c : Char) (sep : String)
    (hsep : sep.toList = B') (hne : B' ≠ []) (hlast : B'.getLast? ≠ some c) :
    pyRsplit1Before (String.mk (P ++ (B' ++ [c]))) sep = String.mk P := by
  unfold pyRsplit1Before
  rw [show (String.mk (P ++ (B' ++ [c]))).toList = P ++ (B' ++ [c]) from rfl, hsep,
    rfindIdx_append_pat_one P B' c hne hlast]
  dsimp only
  congr 1
  exact List.take_left _ _

theorem pyRstrip_mk_concat (X : List Char) (y : Char) (hy : pyIsWS y = true)
    (hlast2 : ∀ c, X.getLast? = some c → pyIsWS c = false) :
    pyRstrip (String.mk (X ++ [y])) = String.mk X := by
  unfold pyRstrip
  rw [show (String.mk (X ++ [y])).toList = X ++ [y] from rfl]
  rw [rstripBy_concat_pos X hy, rstripBy_no_strip hlast2]

theorem lineHead0_render (cat : String) (m n : Int) (hcat : CatClean cat = true) :
    lineHead0 (renderDetailLine cat (Dec.cents m) (Dec.cents n)) =
      String.mk ('-' :: ' ' :: (cat.toList ++ [':'])) := by
  have hparts := CatClean_parts hcat
  have hnd : ∀ c ∈ cat.toList, isAsciiDigit c = false := fun c hc =>
    catchar_not_digit (hparts.2.2.1 c hc)
  obtain ⟨hAne, hAl⟩ := fmtMoney_toList_facts m
  obtain ⟨eA, hAlast, hAdig⟩ := hAl
  obtain ⟨hBne, hBl⟩ := fmtMoney_toList_facts n
  have hnums : lineNums (renderDetailLine cat (Dec.cents m) (Dec.cents n)) =
      [fmtMoney (Dec.cents m), fmtMoney (Dec.cents n)] := by
    unfold lineNums
    rw [pyStrip_render]
    exact findNums_line cat m n hnd
  unfold lineHead0
  dsimp only
  rw [pyStrip_render, hnums]
  have hn2 : ([fmtMoney (Dec.cents m), fmtMoney (Dec.cents n)] : List String).getD
      (([fmtMoney (Dec.cents m), fmtMoney (Dec.cents n)] : List String).length - 2) "" =
      fmtMoney (Dec.cents m) := rfl
  have hn1 : ([fmtMoney (Dec.cents m), fmtMoney (Dec.cents n)] : List String).getD
      (([fmtMoney (Dec.cents m), fmtMoney (Dec.cents n)] : List String).length - 1) "" =
      fmtMoney (Dec.cents n) := rfl
  rw [hn2, hn1, endsWith_render_false, if_neg (by simp)]
  have hassoc1 : (('-' :: ' ' :: (cat.toList ++ [':', ' '])) ++
      ((fmtMoney (Dec.cents m)).toList ++ ([';', ' '] ++ (fmtMoney (Dec.cents n)).toList))) =
      (('-' :: ' ' :: (cat.toList ++ [':', ' '])) ++
        ((fmtMoney (Dec.cents m)).toList ++ [';', ' '])) ++
        (fmtMoney (Dec.cents n)).toList := by
    simp [List.append_assoc]
  rw [hassoc1, pyRsplit1Before_mk _ _ _ rfl hBne]
  have hassoc2 : (('-' :: ' ' :: (cat.toList ++ [':', ' '])) ++
      ((fmtMoney (Dec.cents m)).toList ++ [';', ' '])) =
      (('-' :: ' ' :: (cat.toList ++ [':', ' '])) ++
        ((fmtMoney (Dec.cents m)).toList ++ [';'])) ++ [' '] := by
    simp [List.append_assoc]
  rw [hassoc2, pyRstrip_mk_concat _ _ (by decide) (fun c hc => by
    rw [List.getLast?_append_of_ne_nil _ (by simp),
      List.getLast?_append_of_ne_nil _ (by simp), show ([';'] : List Char).getLast? =
        some ';' from rfl] at hc
    injection hc with hc2
    rw [← hc2]
    decide)]
  rw [pyRsplit1Before_mk_one _ _ _ _ rfl hAne (by
    rw [hAlast]
    intro hcon
    injection hcon with hc3
    rw [hc3] at hAdig
    exact absurd hAdig (by decide))]
  have hassoc3 : ('-' :: ' ' :: (cat.toList ++ [':', ' '])) =
      ('-' :: ' ' :: (cat.toList ++ [':'])) ++ [' '] := by
    simp
  rw [hassoc3, pyRstrip_mk_concat _ _ (by decide) (fun c hc => by
    rw [show ('-' :: ' ' :: (cat.toList ++ [':'])) =
      ('-' :: ' ' :: cat.toList) ++ [':'] from by simp, List.getLast?_concat] at hc
    injection hc with hc4
    rw [← hc4]
    decide)]

theorem lineHeadTrimmed_render (cat : String) (m n : Int) (hcat : CatClean cat = true) :
    lineHeadTrimmed (renderDetailLine cat (Dec.cents m) (Dec.cents n)) = cat := by
  have hparts := CatClean_parts hcat
  obtain ⟨c0, t0, hc0⟩ : ∃ c0 t0, cat.toList = c0 :: t0 := by
    cases hx : cat.toList with
    | nil =>
      rw [hx] at hparts
      exact absurd hparts.1 (by decide)
    | cons a b => exact ⟨a, b, rfl⟩
  have hc0a : isAsciiAlpha c0 = true := by
    have := hparts.1
    rw [hc0] at this
    simpa [optAlpha] using this
  obtain ⟨eL, heL, heLa⟩ : ∃ eL, cat.toList.getLast? = some eL ∧ isAsciiAlpha eL = true := by
    have := hparts.2.1
    cases hx : cat.toList.getLast? with
    | none =>
      rw [hx] at this
      exact absurd this (by decide)
    | some e =>
      rw [hx] at this
      exact ⟨e, rfl, by simpa [optAlpha] using this⟩
  unfold lineHeadTrimmed
  rw [lineHead0_render cat m n hcat]
  rw [show (String.mk ('-' :: ' ' :: (cat.toList ++ [':']))).toList =
    '-' :: ' ' :: (cat.toList ++ [':']) from rfl]
  have hid : collapseWS ('-' :: ' ' :: (cat.toList ++ [':'])) =
      '-' :: ' ' :: (cat.toList ++ [':']) := by
    apply collapseWS_id
    · intro c hc hw
      simp only [List.mem_cons, List.mem_append, List.mem_singleton, List.not_mem_nil,
        or_false] at hc
      rcases hc with rfl | rfl | hc | rfl
      · exact absurd hw (by decide)
      · rfl
      · exact catchar_ws (hparts.2.2.1 c hc) hw
      · exact absurd hw (by decide)
    · rw [noAdjWS]
      simp only [Bool.and_eq_true]
      refine ⟨by decide, ?_⟩
      rw [hc0, List.cons_append, noAdjWS]
      simp only [Bool.and_eq_true]
      refine ⟨by rw [alpha_not_ws hc0a]; decide, ?_⟩
      rw [← List.cons_append, ← hc0]
      exact noAdjWS_append_single hparts.2.2.2 (by decide)
  rw [hid]
  unfold pyStripChars stripBy lstripBy
  rw [show (String.mk ('-' :: ' ' :: (cat.toList ++ [':']))).toList =
    '-' :: ' ' :: (cat.toList ++ [':']) from rfl]
  rw [List.dropWhile_cons_of_pos (by decide), List.dropWhile_cons_of_pos (by decide)]
  rw [hc0, List.cons_append, List.dropWhile_cons_of_neg (by
      rw [alpha_not_strip hc0a]
      exact Bool.false_ne_true),
    ← List.cons_append, ← hc0]
  rw [rstripBy_concat_pos _ (by decide), rstripBy_no_strip (fun c hc => by
    rw [heL] at hc
    injection hc with hc2
    rw [← hc2]
    exact alpha_not_strip heLa)]
  rfl

/-! ## Claims -/

set_option maxRecDepth 1000000

/-- **C1** (code_bug): the claim says `main` exits with code 1 on a missing
input and with code 2 when the extracted text is empty.  The exit-1 branch is
real, but the exit-2 branch is dead code: `text.split("\f")` always returns a
non-empty list (splitting the empty string gives `[""]`), so
`if not pages: sys.exit(2)` can never fire and the program never exits with
code 2 — for an existing input with empty extracted text it just continues. -/
theorem claim1_exit_codes :
    (∀ t : String, mainExitCode true t = none) ∧
    mainExitCode false "" = some 1 := by
  constructor
  · intro t
    have h := pySplit_ne_nil "\x0c" t
    simp [mainExitCode, mainPages, h]
  · rfl

/-- **C2** (confirmed): the value written to `provider_totals.csv` for an
entry built by `main` is the first explicit `TOTAL CLAIMS PAYABLE` row's
amounts when such a row exists among the entry's rows, and otherwise exactly
the sums of all the entry's row amounts — never anything else. -/
theorem claim2_provider_totals :
    ∀ (name : String) (rows : List (String × Dec × Dec)),
      (∃ r, rows.find? isTotalClaimsRow = some r ∧ r ∈ rows ∧
        isTotalClaimsRow r = true ∧
        writtenTotals (providerEntryOfRows name rows) = (r.2.1, r.2.2)) ∨
      (rows.find? isTotalClaimsRow = none ∧
        writtenTotals (providerEntryOfRows name rows) =
          (decSum (rows.map fun r => r.2.1), decSum (rows.map fun r => r.2.2))) := by
  intro name rows
  cases h : rows.find? isTotalClaimsRow with
  | some r =>
    exact Or.inl ⟨r, rfl, List.mem_of_find?_eq_some h, List.find?_some h,
      by simp [writtenTotals, providerEntryOfRows, mainTotals, h]⟩
  | none =>
    exact Or.inr ⟨rfl, by simp [writtenTotals, providerEntryOfRows, mainTotals, h]⟩

/-- **C3** (counterexample): on `"JOHN   Q.  SC SMITH"` the code drops the
`SC` noise token but keeps the middle initial `Q` (only *trailing*
single-letter tokens are dropped), so the cleaned name has 3 tokens, not 2. -/
theorem claim3_counterexample :
    clean_provider_name_raw "JOHN   Q.  SC SMITH" = "John Q Smith" ∧
    (pySplit " " (clean_provider_name_raw "JOHN   Q.  SC SMITH")).length = 3 := by
  decide

/-- **C3** (amended): `clean_provider_name_raw("JOHN   Q.  SC SMITH")` drops
the `SC` noise token, keeps the middle initial (the trailing-single-letter
rule only removes tokens at the end), and returns the 3-token name
`"John Q Smith"`. -/
theorem claim3_amended :
    clean_provider_name_raw "JOHN   Q.  SC SMITH" = "John Q Smith" := by
  decide

/-- **C5** (confirmed): `decode_caesar_shift` composed with itself is not the
identity on the shift range `[33, 94]`: e.g. `'!'` (33) decodes to `'>'`,
which decodes again to `'['`. -/
theorem claim5_decode_not_involution :
    ∃ c : Char, 33 ≤ c.toNat ∧ c.toNat ≤ 94 ∧
      decode_caesar_shift (decode_caesar_shift (String.mk [c])) ≠ String.mk [c] :=
  ⟨'!', by decide⟩

/-- **C7** (confirmed): both `BLENDED` spellings normalize to the canonical
`"BLENDED FEE-FOR-SERVICE PREMIUM"`, the bare forms have no canonical match
and pass through unchanged, and in general every label whose (dash-relaxed)
normalization misses the canonical table is returned as the original input
stripped of surrounding whitespace. -/
theorem claim7_normalize_category :
    normalize_category "BLENDED FEE-FOR-SERVICE PREMIUM" = "BLENDED FEE-FOR-SERVICE PREMIUM" ∧
    normalize_category "BLENDED FEE FOR SERVICE PREMIUM" = "BLENDED FEE-FOR-SERVICE PREMIUM" ∧
    normalize_category "FEE-FOR-SERVICE PREMIUM" = "FEE-FOR-SERVICE PREMIUM" ∧
    normalize_category "FEE FOR SERVICE PREMIUM" = "FEE FOR SERVICE PREMIUM" ∧
    ∀ s, canonLookup (normCandidate s) = none → normalize_category s = pyStrip s := by
  refine ⟨by decide, by decide, by decide, by decide, ?_⟩
  intro s h
  unfold normalize_category
  rw [h]

/-- Witness for C7: the pass-through branch at a concrete unmatched label. -/
theorem claim7_witness :
    normalize_category "  SOME UNKNOWN LABEL  " = pyStrip "  SOME UNKNOWN LABEL  " :=
  claim7_normalize_category.2.2.2.2 "  SOME UNKNOWN LABEL  " (by decide)

/-- **C8** (confirmed): every row yielded by
`_iter_group_sections_from_decoded` has a normalized label that does not
contain `TOTAL` (case-insensitively): subtotal rows are filtered out, for
every input page list. -/
theorem claim8_no_total_rows :
    ∀ (pages : List String) (r : String × String × Dec × Dec),
      r ∈ iterGroupSections pages →
      strContains (pyUpper r.2.1) "TOTAL" = false := by
  intro pages r hr
  exact sectionRun_no_total _ _ _ hr

/-- Witness for C8: a concrete decoded page whose matrix yields one row. -/
theorem claim8_witness :
    strContains
      (pyUpper ("GROUP PAYMENTS", "ACCESS BONUS PAYMENT",
        (⟨1, 0⟩ : Dec), (⟨2, 0⟩ : Dec)).2.1) "TOTAL" = false :=
  claim8_no_total_rows
    ["GROUP PAYMENTS\nCURRENT MONTH YEAR TO DATE\nACCESS BONUS PAYMENT=1=2"]
    ("GROUP PAYMENTS", "ACCESS BONUS PAYMENT", ⟨1, 0⟩, ⟨2, 0⟩) (by decide)

/-- **C9** (counterexample): `normalize_category` is not idempotent.  On
`"\t-ACCESS BONUS PAYMENT"` the mid-pipeline `strip(" :-")` cannot remove the
leading dash (it is shielded by the tab, which that strip does not touch), so
the label misses the table and passes through as `"-ACCESS BONUS PAYMENT"`;
normalizing that output strips the now-leading dash and hits the table,
returning `"ACCESS BONUS PAYMENT"` — a different string. -/
theorem claim9_counterexample :
    normalize_category "\t-ACCESS BONUS PAYMENT" = "-ACCESS BONUS PAYMENT" ∧
    normalize_category (normalize_category "\t-ACCESS BONUS PAYMENT") =
      "ACCESS BONUS PAYMENT" := by
  decide

/-- **C9** (amended): outputs that come from a canonical-table match are
fixed points of `normalize_category`; idempotence can fail only for the
pass-through of an unmatched label. -/
theorem claim9_amended :
    ∀ s v, canonLookup (normCandidate s) = some v →
      normalize_category (normalize_category s) = normalize_category s := by
  intro s v h
  have hs : normalize_category s = v := by
    unfold normalize_category
    rw [h]
  rw [hs, canon_values_fixed v (canonLookup_mem h)]

/-- Witness for C9 (amended): a concrete canonical-matching input. -/
theorem claim9_amended_witness :
    normalize_category (normalize_category "ACCESS BONUS PAYMENT") =
      normalize_category "ACCESS BONUS PAYMENT" :=
  claim9_amended "ACCESS BONUS PAYMENT" "ACCESS BONUS PAYMENT" (by decide)

/-- **C10** (confirmed): `line_to_category_and_numbers` never returns a
partial result — every return is either all-`None` or a full triple. -/
theorem claim10_all_or_nothing :
    ∀ line0 : String,
      line_to_category_and_numbers line0 = (none, none, none) ∨
      ∃ c a b, line_to_category_and_numbers line0 = (some c, some a, some b) := by
  intro line0
  unfold line_to_category_and_numbers
  dsimp only
  repeat' split
  all_goals first
    | exact Or.inl rfl
    | exact Or.inr ⟨_, _, _, rfl⟩

/-- **C6** (counterexample): a line with two currency-like numeric tokens on
which `line_to_category_and_numbers` returns no record at all: `"12 34"` has
two numeric tokens but an empty (letter-free) head, so the claim's "for every
line containing at least two currency-like numeric tokens" is too strong. -/
theorem claim6_counterexample :
    (lineNums "12 34").length = 2 ∧
    line_to_category_and_numbers "12 34" = (none, none, none) := by
  decide

/-- **C6** (amended): for every line with at least two currency-like numeric
tokens whose remaining head contains a letter, the last two tokens are
interpreted (comma-stripped, as floats) as (current-month, year-to-date), and
the category is the preceding text trimmed and normalized; in particular the
claim's concrete example holds as stated. -/
theorem claim6_amended :
    (∀ line0 : String, 2 ≤ (lineNums line0).length →
      strHasAlpha (lineHead0 line0) = true →
      (pyFloat (pyReplace (lineTok2 line0) "," "")).isSome = true ∧
      (pyFloat (pyReplace (lineTok1 line0) "," "")).isSome = true ∧
      line_to_category_and_numbers line0 =
        (some (normalize_category (lineHeadTrimmed line0)),
         pyFloat (pyReplace (lineTok2 line0) "," ""),
         pyFloat (pyReplace (lineTok1 line0) "," ""))) ∧
    line_to_category_and_numbers "NETWORK BASE RATE PAYMENT 1,234.56 2,345.67" =
      (some "NETWORK BASE RATE PAYMENT", some (Dec.cents 123456), some (Dec.cents 234567)) := by
  constructor
  · intro line0 h2 halpha
    have hne : ¬ (pyStrip line0 = "") := by
      intro he
      rw [lineNums, he] at h2
      simp [findNums, findNumsAux] at h2
    have hlt : ¬ ((findNums (pyStrip line0)).length < 2) := by
      rw [lineNums] at h2
      omega
    have hmem2 : lineTok2 line0 ∈ findNums (pyStrip line0) := by
      rw [lineTok2, lineNums]
      have hl : (findNums (pyStrip line0)).length - 2 < (findNums (pyStrip line0)).length := by
        rw [lineNums] at h2
        omega
      rw [List.getD_eq_getElem _ _ hl]
      exact List.getElem_mem hl
    have hmem1 : lineTok1 line0 ∈ findNums (pyStrip line0) := by
      rw [lineTok1, lineNums]
      have hl : (findNums (pyStrip line0)).length - 1 < (findNums (pyStrip line0)).length := by
        rw [lineNums] at h2
        omega
      rw [List.getD_eq_getElem _ _ hl]
      exact List.getElem_mem hl
    have hsome2 := findNums_tokens_parse (pyStrip line0) _ hmem2
    have hsome1 := findNums_tokens_parse (pyStrip line0) _ hmem1
    refine ⟨hsome2, hsome1, ?_⟩
    obtain ⟨cur, hcur⟩ := Option.isSome_iff_exists.mp hsome2
    obtain ⟨ytd, hytd⟩ := Option.isSome_iff_exists.mp hsome1
    unfold line_to_category_and_numbers
    dsimp only
    rw [if_neg hne, if_neg hlt]
    rw [show (findNums (pyStrip line0)).getD ((findNums (pyStrip line0)).length - 2) ""
        = lineTok2 line0 from by rw [lineTok2, lineNums],
      show (findNums (pyStrip line0)).getD ((findNums (pyStrip line0)).length - 1) ""
        = lineTok1 line0 from by rw [lineTok1, lineNums]]
    rw [hcur, hytd]
    dsimp only
    rw [halpha]
    simp only [Bool.true_eq_false, if_false]
  · decide

/-- Witness for C6 (amended) at the claim's own example line. -/
theorem claim6_amended_witness :
    (pyFloat (pyReplace (lineTok2 "NETWORK BASE RATE PAYMENT 1,234.56 2,345.67") "," "")).isSome = true ∧
    (pyFloat (pyReplace (lineTok1 "NETWORK BASE RATE PAYMENT 1,234.56 2,345.67") "," "")).isSome = true ∧
    line_to_category_and_numbers "NETWORK BASE RATE PAYMENT 1,234.56 2,345.67" =
      (some (normalize_category (lineHeadTrimmed "NETWORK BASE RATE PAYMENT 1,234.56 2,345.67")),
       pyFloat (pyReplace (lineTok2 "NETWORK BASE RATE PAYMENT 1,234.56 2,345.67") "," ""),
       pyFloat (pyReplace (lineTok1 "NETWORK BASE RATE PAYMENT 1,234.56 2,345.67") "," "")) :=
  claim6_amended.1 "NETWORK BASE RATE PAYMENT 1,234.56 2,345.67" (by decide) (by decide)

/-- Claim C4 counterexample: a noise-free input whose extracted triple list is
not the original one — the providers-index line of `combined_readable.txt`
("  - John Smith: 15.00; 26.00") re-parses as an extra (provider-name,
totals) triple in front of the original rows. -/
theorem claim4_counterexample :
    (let P4 : List String := ["", "",
      "JOHN SMITH\nNETWORK BASE RATE PAYMENT 5.00 6.00\nACCESS BONUS PAYMENT 10.00 20.00"]
     noiseFreePages P4 = true ∧
     roundTripOriginal P4 =
       [("NETWORK BASE RATE PAYMENT", ⟨5, 0⟩, ⟨6, 0⟩),
        ("ACCESS BONUS PAYMENT", ⟨10, 0⟩, ⟨20, 0⟩)] ∧
     roundTripExtracted metaNone P4 =
       [("John Smith", ⟨15, 0⟩, ⟨26, 0⟩),
        ("NETWORK BASE RATE PAYMENT", ⟨5, 0⟩, ⟨6, 0⟩),
        ("ACCESS BONUS PAYMENT", ⟨10, 0⟩, ⟨20, 0⟩)]) := by
  refine ⟨by decide, by decide, by decide⟩

/-- Claim C4 (amended): the per-row round trip does hold — every detail row
rendered by `build_text` re-parses via `line_to_category_and_numbers` to
exactly its original (category, current, ytd) triple, for every clean
category label (letters/spaces/hyphens, letter at both ends, no double
spaces, fixed under `normalize_category`) and all two-decimal amounts; the
full extracted list is nevertheless a strict superset of the original
because provider-index lines also parse as triples. -/
theorem claim4_amended (cat : String) (m n : Int)
    (hclean : CatClean cat = true) (hfix : normalize_category cat = cat) :
    line_to_category_and_numbers (renderDetailLine cat (Dec.cents m) (Dec.cents n)) =
      (some cat, some (Dec.cents m), some (Dec.cents n)) := by
  have hparts := CatClean_parts hclean
  have hnd : ∀ c ∈ cat.toList, isAsciiDigit c = false := fun c hc =>
    catchar_not_digit (hparts.2.2.1 c hc)
  obtain ⟨c0, t0, hc0⟩ : ∃ c0 t0, cat.toList = c0 :: t0 := by
    cases hx : cat.toList with
    | nil =>
      rw [hx] at hparts
      exact absurd hparts.1 (by decide)
    | cons a b => exact ⟨a, b, rfl⟩
  have hc0a : isAsciiAlpha c0 = true := by
    have := hparts.1
    rw [hc0] at this
    simpa [optAlpha] using this
  unfold line_to_category_and_numbers
  dsimp only
  rw [pyStrip_render]
  rw [if_neg (by simp [String.ext_iff])]
  rw [findNums_line cat m n hnd]
  rw [if_neg (by simp)]
  have hn2 : ([fmtMoney (Dec.cents m), fmtMoney (Dec.cents n)] : List String).getD
      (([fmtMoney (Dec.cents m), fmtMoney (Dec.cents n)] : List String).length - 2) "" =
      fmtMoney (Dec.cents m) := rfl
  have hn1 : ([fmtMoney (Dec.cents m), fmtMoney (Dec.cents n)] : List String).getD
      (([fmtMoney (Dec.cents m), fmtMoney (Dec.cents n)] : List String).length - 1) "" =
      fmtMoney (Dec.cents n) := rfl
  rw [hn2, hn1, parse_value_money m, parse_value_money n]
  dsimp only
  have halpha : strHasAlpha (lineHead0 (renderDetailLine cat (Dec.cents m)
      (Dec.cents n))) = true := by
    rw [lineHead0_render cat m n hclean]
    unfold strHasAlpha
    rw [show (String.mk ('-' :: ' ' :: (cat.toList ++ [':']))).toList =
      '-' :: ' ' :: (cat.toList ++ [':']) from rfl]
    simp only [List.any_cons, List.any_append, Bool.or_eq_true]
    right
    right
    left
    rw [hc0]
    simp [hc0a]
  rw [halpha]
  rw [if_neg (by simp)]
  rw [lineHeadTrimmed_render cat m n hclean, hfix]

theorem claim4_amended_witness :
    line_to_category_and_numbers (renderDetailLine "ACCESS BONUS PAYMENT"
      (Dec.cents 123456) (Dec.cents (-789))) =
      (some "ACCESS BONUS PAYMENT", some (Dec.cents 123456), some (Dec.cents (-789))) :=
  claim4_amended "ACCESS BONUS PAYMENT" 123456 (-789) (by decide) (by decide)

end PaymentSummary
